import Mathlib

/-!
Verification development for the CCG CKY parser repository (`cyk`).

The Python sources (`CCGTypes.py`, `CCGExprs.py`, `CCGLambdas.py`,
`CCGrammar.py`, `CCGCKYParser.py`) are embedded shallowly: the class
hierarchies become inductive types, mutating methods become functions that
return the updated state, Python dictionaries become association lists where
an update prepends the new binding (so that lookups see the most recent
binding, as a dict overwrite does), and Python exceptions / divergence become
an `Except` monad with an error value (`.fuel` stands for non-termination,
which the recursive `replace`/`unify`/lambda-evaluation code genuinely
exhibits on crafted inputs, so those functions carry a fuel parameter).
-/

namespace CYK

/-- Surface expressions: shallow embedding of `CCGExprs.py`
(`CCGExprVar`, `CCGExprString`, `CCGExprConcat`). -/
inductive CCGExpr : Type where
  | var (name : String)
  | str (s : String)
  | concat (left right : CCGExpr)
deriving DecidableEq, Repr

/-- Runtime outcomes other than an ordinary return value.
`fuel` models divergence (the Python code loops forever on cyclic variable
chains and on non-terminating unification/evaluation); `emptyInput` models
`SyntaxError("Empty input")`; `tokenError` models `TokenError`;
`concatMatch` models `ConcatError` raised by `CCGExprConcat.match`;
`noneSubst` models the `TypeError` that `CCGExprVar.match` raises when its
`sigma` argument is `None`; `maxEmpty` models the `ValueError` of `max()`
on an empty sequence; `indexErr` models an `IndexError` on a list access. -/
inductive RunErr : Type where
  | fuel
  | emptyInput
  | tokenError (token : String)
  | concatMatch (data : CCGExpr)
  | noneSubst
  | maxEmpty
  | indexErr
deriving DecidableEq, Repr

/-- Categories: shallow embedding of the class hierarchy in `CCGTypes.py`
(`CCGTypeVar`, `CCGTypeAtomicVar`, `CCGTypeAtomic`, `CCGTypeComposite` with a
boolean direction — `true` prints `/`, `false` prints `\` — and
`CCGTypeAnnotation` with a feature string, constructor `annot` here). -/
inductive CCGType : Type where
  | var (name : String)
  | atomicVar (name : String)
  | atomic (name : String)
  | composite (dir : Bool) (left right : CCGType)
  | annot (ty : CCGType) (feature : String)
deriving DecidableEq, Repr

/-- `CCGType.show` from the source (named `render` because `show` is a Lean
keyword): `$name`, `@name`, bare name, `(l / r)` or `(l \ r)`, `t[feature]`. -/
def CCGType.render : CCGType → String
  | .var n => "$" ++ n
  | .atomicVar n => "@" ++ n
  | .atomic n => n
  | .composite d l r =>
      "(" ++ l.render ++ (if d then " / " else " \\ ") ++ r.render ++ ")"
  | .annot t f => t.render ++ "[" ++ f ++ "]"

/-- Type-variable substitutions: the category-valued part of the Python
`sigma` dictionary.  A `dict` update prepends here, and `lookupT` returns the
first (most recent) binding, which matches dict-overwrite semantics. -/
abbrev TSubst : Type := List (String × CCGType)

def lookupT : TSubst → String → Option CCGType
  | [], _ => none
  | (k, v) :: rest, n => if k = n then some v else lookupT rest n

/-- `sigma.update({n: v})` on the category side. -/
def updT (σ : TSubst) (n : String) (v : CCGType) : TSubst := (n, v) :: σ

/-- `CCGTypeVar.replace`: looks the name up and, when the bound value is
itself a `CCGTypeVar`, calls `replace` on it again, chasing the chain.  The
chain may be cyclic, in which case Python loops forever; `fuel` bounds the
number of chasing steps and `.error .fuel` reports the divergence. -/
def chaseT (σ : TSubst) : Nat → String → Except RunErr CCGType
  | fuel, n =>
    match lookupT σ n with
    | none => .ok (.var n)
    | some (.var m) =>
      (match fuel with
       | 0 => .error .fuel
       | f + 1 => chaseT σ f m)
    | some t => .ok t

/-- `replace` on categories (`CCGTypes.py`): `CCGTypeVar` chases chains of
variable bindings, `CCGTypeAtomicVar` returns its binding without chasing,
`CCGTypeAtomic` is unchanged, `CCGTypeComposite` and the annotated case
recurse into their parts. -/
def CCGType.replace (fuel : Nat) (σ : TSubst) : CCGType → Except RunErr CCGType
  | .var n => chaseT σ fuel n
  | .atomicVar n => .ok ((lookupT σ n).getD (.atomicVar n))
  | .atomic n => .ok (.atomic n)
  | .composite d l r => do
      let l' ← l.replace fuel σ
      let r' ← r.replace fuel σ
      .ok (.composite d l' r')
  | .annot t f => do
      let t' ← t.replace fuel σ
      .ok (.annot t' f)

/-- `CCGType.unify(left, right, sigma)` (`CCGTypes.py`, lines 89-164).
The cases appear in source order; Python structural matching is
first-match-wins, exactly like this Lean `match`.  Notes kept from the
source:
* the `(CCGTypeVar, CCGTypeVar)` case only sets the result when the names
  differ, so unifying a variable with itself returns `false`;
* the source's case at line 140, `(CCGTypeAtomicVar, CCGTypeAnnotation)`
  with keyword pattern `ccgtype=...`, can never match because the attribute
  of `CCGTypeAnnotation` is named `type`, so that case has no counterpart
  here and such pairs fall through to the annotation-stripping case;
* in the `(CCGTypeAnnotation, CCGTypeAnnotation)` case Python's `and`
  short-circuits, so the inner unification runs only when features agree;
* in the composite case all of `same_dir`, `unif_left` and `unif_right` are
  computed before the conjunction, so `sigma` is updated even when the
  directions differ or a sub-unification fails.
Each recursive call and each embedded `replace` uses the decremented fuel;
the function mutates `sigma` in Python, so it returns the updated `TSubst`
next to the boolean. -/
def CCGType.unify : Nat → CCGType → CCGType → TSubst → Except RunErr (Bool × TSubst)
  | 0, _, _, _ => .error .fuel
  | fuel + 1, l, r, σ =>
    match l, r with
    | .var n1, .var n2 =>
        if n1 = n2 then .ok (false, σ) else .ok (true, updT σ n1 (.var n2))
    | .var n, t => .ok (true, updT σ n t)
    | t, .var n => .ok (true, updT σ n t)
    | .atomicVar n1, .atomicVar n2 =>
        if n1 = n2 then .ok (false, σ) else .ok (true, updT σ n1 (.atomicVar n2))
    | .atomicVar n1, .atomic n2 => .ok (true, updT σ n1 (.atomic n2))
    | .atomic n2, .atomicVar n1 => .ok (true, updT σ n1 (.atomic n2))
    | .annot (.atomic n2) f, .atomicVar n1 =>
        .ok (true, updT σ n1 (.annot (.atomic n2) f))
    | .atomic n1, .atomic n2 => .ok (decide (n1 = n2), σ)
    | .annot t1 f1, .annot t2 f2 =>
        if f1 = f2 then CCGType.unify fuel t1 t2 σ else .ok (false, σ)
    | .annot t1 _, t => CCGType.unify fuel t1 t σ
    | t, .annot t2 _ => CCGType.unify fuel t t2 σ
    | .composite d1 l1 r1, .composite d2 l2 r2 => do
        let (ul, σ1) ← CCGType.unify fuel l1 l2 σ
        let r1r ← r1.replace fuel σ1
        let r2r ← r2.replace fuel σ1
        let (ur, σ2) ← CCGType.unify fuel r1r r2r σ1
        .ok (decide (d1 = d2) && ul && ur, σ2)
    | _, _ => .ok (false, σ)

/-! Lambda terms (`CCGLambdas.py`): `LambdaTermVar`, `LambdaTermBinop`,
`LambdaTermPredicate`, `LambdaTermApplication`, `LambdaTermLambda`,
`LambdaTermExists` (constructor `exist` here). -/

inductive LambdaTerm : Type where
  | var (name : String)
  | binop (op : String) (left right : LambdaTerm)
  | pred (f : LambdaTerm) (args : List LambdaTerm)
  | app (f : LambdaTerm) (arg : LambdaTerm)
  | lam (v : String) (body : LambdaTerm)
  | exist (v : String) (body : LambdaTerm)

abbrev LEnv : Type := List (String × LambdaTerm)

def lookupL : LEnv → String → Option LambdaTerm
  | [], _ => none
  | (k, v) :: rest, n => if k = n then some v else lookupL rest n

/-- `LambdaTerm.fresh(var)`: Python increments the class counter and returns
`var.split('_')[0] + "_" + count`.  The `Nat` argument here is the next unused
index (the Python counter starts at `-1` and is incremented before use). -/
def freshLam (v : String) (c : Nat) : String :=
  ((v.splitOn "_").headD v) ++ "_" ++ toString c

/-! The `eval` / `apply` / `apply_predicate` trio from `CCGLambdas.py`.  The
class counter used by `fresh` is threaded explicitly (`LambdaTermLambda.apply`
calls `reset()` first, so there the counter restarts at zero;
`LambdaTermExists.apply` does not reset).  These functions can loop forever on
crafted terms (`apply` of a lambda evaluates its body, which can apply further
lambdas), hence the fuel, consumed once per call. -/
mutual

def evalLam : Nat → LambdaTerm → LEnv → Nat → Except RunErr (LambdaTerm × Nat)
  | 0, _, _, _ => .error .fuel
  | fu + 1, t, env, c =>
    match t with
    | .var n => .ok ((lookupL env n).getD (.var n), c)
    | .binop op l r => do
        let (l', c1) ← evalLam fu l env c
        let (r', c2) ← evalLam fu r env c1
        .ok (.binop op l' r', c2)
    | .pred f args => do
        let (args', c1) ← evalListLam fu args env c
        let (f', c2) ← evalLam fu f env c1
        applyPredLam fu f' args' c2
    | .app f a => do
        let (f', c1) ← evalLam fu f env c
        let (a', c2) ← evalLam fu a env c1
        applyLam fu f' a' c2
    | .lam v body => do
        let v' := freshLam v c
        let (b', c2) ← evalLam fu body ((v, .var v') :: env) (c + 1)
        .ok (.lam v' b', c2)
    | .exist v body => do
        let v' := freshLam v c
        let (b', c2) ← evalLam fu body ((v, .var v') :: env) (c + 1)
        .ok (.exist v' b', c2)

def evalListLam : Nat → List LambdaTerm → LEnv → Nat → Except RunErr (List LambdaTerm × Nat)
  | 0, _, _, _ => .error .fuel
  | _ + 1, [], _, c => .ok ([], c)
  | fu + 1, a :: as, env, c => do
      let (a', c1) ← evalLam fu a env c
      let (as', c2) ← evalListLam fu as env c1
      .ok (a' :: as', c2)

def applyLam : Nat → LambdaTerm → LambdaTerm → Nat → Except RunErr (LambdaTerm × Nat)
  | 0, _, _, _ => .error .fuel
  | fu + 1, f, arg, c =>
    match f with
    | .var n => .ok (.app (.var n) arg, c)
    | .binop op l r => do
        let (l', c1) ← applyLam fu l arg c
        let (r', c2) ← applyLam fu r arg c1
        .ok (.binop op l' r', c2)
    | .pred g as => .ok (.pred g (as ++ [arg]), c)
    | .app g a => .ok (.app (.app g a) arg, c)
    | .lam v body => evalLam fu body [(v, arg)] 0
    | .exist v body => evalLam fu body [(v, arg)] c

def applyPredLam : Nat → LambdaTerm → List LambdaTerm → Nat → Except RunErr (LambdaTerm × Nat)
  | 0, _, _, _ => .error .fuel
  | fu + 1, f, args, c =>
    match f with
    | .var n => .ok (.pred (.var n) args, c)
    | .binop op l r => do
        let (l', c1) ← applyPredLam fu l args c
        let (r', c2) ← applyPredLam fu r args c1
        .ok (.binop op l' r', c2)
    | .pred g as => .ok (.pred g (as ++ args), c)
    | .app g a => .ok (.pred (.app g a) args, c)
    | .lam v body =>
      (match args with
       | [] => .error .indexErr
       | a0 :: rest => do
           let (f', c1) ← evalLam fu body [(v, a0)] c
           if rest.isEmpty then .ok (f', c1) else applyPredLam fu f' rest c1)
    | .exist v body =>
      (match args with
       | [] => .error .indexErr
       | a0 :: rest => do
           let (f', c1) ← evalLam fu body [(v, a0)] c
           if rest.isEmpty then .ok (f', c1) else applyPredLam fu f' rest c1)

end

/-! Surface-expression operations (`CCGExprs.py`). -/

abbrev ESubst : Type := List (String × CCGExpr)

def lookupE : ESubst → String → Option CCGExpr
  | [], _ => none
  | (k, v) :: rest, n => if k = n then some v else lookupE rest n

/-- `show` on expressions: a variable prints its name, a string literal is
quoted, a concatenation drops the closing quote of the left part and the
opening quote of the right part and joins with a space. -/
def CCGExpr.render : CCGExpr → String
  | .var n => n
  | .str s => "\"" ++ s ++ "\""
  | .concat l r => (l.render.dropRight 1) ++ " " ++ (r.render.drop 1)

/-- `replace` on expressions: variables are looked up (no chasing), string
literals are unchanged, concatenations recurse. -/
def CCGExpr.replace (σ : ESubst) : CCGExpr → CCGExpr
  | .var n => (lookupE σ n).getD (.var n)
  | .str s => .str s
  | .concat l r => .concat (l.replace σ) (r.replace σ)

/-- `bound.match(data, None)`: the nested call that `CCGExprVar.match` makes
on an already-bound value, passing `None` for `sigma`.  A bound variable then
evaluates `self.name not in None` and raises `TypeError` (`noneSubst`); a
bound string compares; a bound concatenation raises `ConcatError`. -/
def exprMatchBound (bound data : CCGExpr) : Except RunErr Bool :=
  match bound with
  | .var _ => .error .noneSubst
  | .str s => .ok (match data with | .str s2 => decide (s = s2) | _ => false)
  | .concat _ _ => .error (.concatMatch data)

/-- `match` on expressions (named `matchE`; `match` is a Lean keyword).
`CCGExprVar.match` binds on first encounter and otherwise matches the bound
value against the data; `CCGExprString.match` compares string literals;
`CCGExprConcat.match` raises `ConcatError` unconditionally. -/
def CCGExpr.matchE (pat data : CCGExpr) (σ : ESubst) : Except RunErr (Bool × ESubst) :=
  match pat with
  | .var n =>
    (match lookupE σ n with
     | none => .ok (true, (n, data) :: σ)
     | some bound => (exprMatchBound bound data).map (fun b => (b, σ)))
  | .str s => .ok ((match data with | .str s2 => decide (s = s2) | _ => false), σ)
  | .concat _ _ => .error (.concatMatch data)

/-! Judgements and derivation forests (`CCGrammar.py`). -/

/-- The Python `sigma` is a single dictionary holding both expression-variable
and type-variable bindings.  The fixed inference rules use the names `a`, `b`
for expression variables and `X`, `Y`, `Z`, `T` (plus fresh `T_k`) for type
variables, so the two key namespaces are disjoint and the dictionary is
modelled as a pair of association lists. -/
structure Subst where
  es : ESubst
  ts : TSubst
deriving DecidableEq, Repr

def emptySubst : Subst := ⟨[], []⟩

/-! `Judgement` (`CCGrammar.py`): expression, category, optional semantics and
the derivation forest.  A forest record is the Python dictionary with a weight
and an empty derivation list for a lexical leaf, or a weight and the list
`[combinator, sigma, judmts]` for a combinator derivation; the combinator is
stored by name here. -/
mutual
inductive Judgement : Type where
  | mk (expr : CCGExpr) (type : CCGType) (sem : Option LambdaTerm)
       (derivation : List DRecord)
inductive DRecord : Type where
  | mk (weight : Nat) (info : Option DInfo)
inductive DInfo : Type where
  | mk (ruleName : String) (sub : Subst) (children : List Judgement)
end

def Judgement.expr : Judgement → CCGExpr
  | .mk e _ _ _ => e

def Judgement.type : Judgement → CCGType
  | .mk _ t _ _ => t

def Judgement.sem : Judgement → Option LambdaTerm
  | .mk _ _ s _ => s

def Judgement.derivation : Judgement → List DRecord
  | .mk _ _ _ d => d

def DRecord.weight : DRecord → Nat
  | .mk w _ => w

def DRecord.info : DRecord → Option DInfo
  | .mk _ i => i

def DInfo.children : DInfo → List Judgement
  | .mk _ _ c => c

def DInfo.ruleName : DInfo → String
  | .mk r _ _ => r

/-- The default derivation of a freshly constructed `Judgement`:
`[{"weight": weight, "derivation": []}]` with the default weight 1. -/
def defaultDeriv : List DRecord := [DRecord.mk 1 none]

/-- `itertools.product` over a list of lists, in Python's iteration order
(the first list varies slowest). -/
def listProd : List (List α) → List (List α)
  | [] => [[]]
  | xs :: rest => xs.flatMap (fun x => (listProd rest).map (fun t => x :: t))

/-- `max(derv["weight"] for derv in derivations)`: Python `max` raises
`ValueError` on an empty sequence. -/
def maxWeights : List DRecord → Except RunErr Nat
  | [] => .error .maxEmpty
  | r :: rs => .ok (rs.foldl (fun acc r' => Nat.max acc r'.weight) r.weight)

/-- `Judgement.deriving(combinator, sigma, judmts, sem)` (named `derivingJ`;
`deriving` is a Lean keyword): rebuilds the forest with one record per tuple
of the product of the children's forests, each record holding the maximal
weight of its tuple and the backpointer `[combinator, sigma, judmts]`, sets
the semantics, and returns the (mutated, here: new) judgement. -/
def derivingJ (j : Judgement) (ruleName : String) (σ : Subst)
    (judmts : List Judgement) (sem : Option LambdaTerm) :
    Except RunErr Judgement := do
  let recs ← (listProd (judmts.map Judgement.derivation)).mapM (fun t => do
      let w ← maxWeights t
      pure (DRecord.mk w (some (DInfo.mk ruleName σ judmts))))
  pure (Judgement.mk j.expr j.type sem recs)

/-- `Judgement.replace(sigma)`: rewrites the expression and the category,
keeping semantics and derivation. -/
def Judgement.replaceJ (fuel : Nat) (j : Judgement) (σ : Subst) :
    Except RunErr Judgement := do
  let t ← CCGType.replace fuel σ.ts j.type
  pure (Judgement.mk (j.expr.replace σ.es) t j.sem j.derivation)

/-- `Judgement.match(data, sigma)`: matches the expressions, then unifies the
categories; returns `none` (Python `None`) when either step refuses. -/
def Judgement.matchJ (fuel : Nat) (pat dat : Judgement) (σ : Subst) :
    Except RunErr (Option Subst) := do
  let (b, es') ← CCGExpr.matchE pat.expr dat.expr σ.es
  if b then do
    let (u, ts') ← CCGType.unify fuel pat.type dat.type σ.ts
    if u then pure (some ⟨es', ts'⟩) else pure none
  else pure none

/-! The inference engine (`CCGCKYParser.py`). -/

/-- The two process-wide fresh-name counters: `tcount` is `CCGType.count`
(used by type raising) and `lcount` is `LambdaTerm.count` (used by lambda
evaluation).  Each stores the next unused index; the Python counters start at
`-1` and are incremented before use. -/
structure GState where
  tcount : Nat
  lcount : Nat
deriving DecidableEq, Repr

/-- An inference rule (`Inference` in `CCGCKYParser.py`): a name, hypothesis
judgement patterns, a conclusion pattern and a semantic combiner.  The
source's `helper` function is the identity for the four base combinators and
the fresh-`T` rewriter for both type-raising rules; the flag `raiser` selects
between those two. -/
structure Inference where
  name : String
  hyps : List Judgement
  concl : Judgement
  semFn : Nat → List Judgement → Nat → Except RunErr (Option LambdaTerm × Nat)
  raiser : Bool

/-- `CCGType.fresh("T")`: bump the class counter and return `"T_" + count`. -/
def freshT (c : Nat) : String := "T_" ++ toString c

/-- The `helper` call at the start of `Inference.match`: for the type-raising
rules it replaces the conclusion's `T` by a freshly numbered type variable,
`x[1].replace({"T": CCGTypeVar(x[1].type.fresh("T"))})`. -/
def applyHelper (fuel : Nat) (inf : Inference) (st : GState) :
    Except RunErr ((List Judgement × Judgement) × GState) :=
  if inf.raiser then do
    let c' ← Judgement.replaceJ fuel inf.concl ⟨[], [("T", .var (freshT st.tcount))]⟩
    pure ((inf.hyps, c'), { st with tcount := st.tcount + 1 })
  else pure ((inf.hyps, inf.concl), st)

/-- The hypothesis loop of `Inference.match`: for each `(pat, dat)` in
`zip(hyps, data)`, both sides are first rewritten with the substitution
accumulated so far, then matched; a refusal aborts with `None`. -/
def inferMatchGo (fuel : Nat) : List (Judgement × Judgement) → Subst →
    Except RunErr (Option Subst)
  | [], σ => .ok (some σ)
  | (pat, dat) :: rest, σ => do
      let pat' ← Judgement.replaceJ fuel pat σ
      let dat' ← Judgement.replaceJ fuel dat σ
      match ← Judgement.matchJ fuel pat' dat' σ with
      | none => pure none
      | some σ' => inferMatchGo fuel rest σ'

/-- `Inference.match(data)`: apply the helper, run the hypothesis loop from an
empty substitution, and on success compute the semantics on the raw inputs
and return the conclusion, substituted and `deriving`-merged over the
inputs.  A failed hypothesis yields `none`, not an error. -/
def inferMatch (fuel : Nat) (inf : Inference) (data : List Judgement)
    (st : GState) : Except RunErr (Option Judgement × GState) := do
  let ((hyps, concl), st1) ← applyHelper fuel inf st
  match ← inferMatchGo fuel (hyps.zip data) emptySubst with
  | none => pure (none, st1)
  | some σ => do
      let (sem, lc') ← inf.semFn fuel data st1.lcount
      let conclR ← Judgement.replaceJ fuel concl σ
      let j ← derivingJ conclR inf.name σ data sem
      pure (some j, { st1 with lcount := lc' })

/-- Semantics of both application combinators: apply the functor's semantics
to the argument's semantics when both are present (`data[i].sem.apply(...)`);
`funIdx`/`argIdx` select which input is the functor. -/
def semApply (funIdx argIdx : Nat) (fuel : Nat) (data : List Judgement)
    (lc : Nat) : Except RunErr (Option LambdaTerm × Nat) :=
  match data.get? funIdx, data.get? argIdx with
  | some df, some da =>
    (match df.sem, da.sem with
     | some sf, some sa => (applyLam fuel sf sa lc).map (fun p => (some p.1, p.2))
     | _, _ => .ok (none, lc))
  | _, _ => .error .indexErr

/-- Semantics of both composition combinators: build
`λx. s_out (s_in x)` from the two input semantics when both are present. -/
def semCompose (outIdx inIdx : Nat) (_fuel : Nat) (data : List Judgement)
    (lc : Nat) : Except RunErr (Option LambdaTerm × Nat) :=
  match data.get? outIdx, data.get? inIdx with
  | some d0, some d1 =>
    (match d0.sem, d1.sem with
     | some s0, some s1 =>
         .ok (some (.lam "x" (.app s0 (.app s1 (.var "x")))), lc)
     | _, _ => .ok (none, lc))
  | _, _ => .error .indexErr

/-- Semantics of both type-raising combinators: wrap the input semantics as
`λf. f s`. -/
def semRaise (_fuel : Nat) (data : List Judgement) (lc : Nat) :
    Except RunErr (Option LambdaTerm × Nat) :=
  match data.get? 0 with
  | some d0 =>
    (match d0.sem with
     | some s => .ok (some (.lam "f" (.app (.var "f") s)), lc)
     | none => .ok (none, lc))
  | none => .error .indexErr

/-- `ApplicationLeft` (`"<"`): `b : Y` and `a : X \ Y` yield `b a : X`
(direction `0` = backward); semantics `data[1].sem.apply(data[0].sem)`. -/
def ApplicationLeft : Inference where
  name := "<"
  hyps := [Judgement.mk (.var "b") (.var "Y") none defaultDeriv,
           Judgement.mk (.var "a") (.composite false (.var "X") (.var "Y"))
             none defaultDeriv]
  concl := Judgement.mk (.concat (.var "b") (.var "a")) (.var "X")
             none defaultDeriv
  semFn := semApply 1 0
  raiser := false

/-- `ApplicationRight` (`">"`): `a : X / Y` and `b : Y` yield `a b : X`;
semantics `data[0].sem.apply(data[1].sem)`. -/
def ApplicationRight : Inference where
  name := ">"
  hyps := [Judgement.mk (.var "a") (.composite true (.var "X") (.var "Y"))
             none defaultDeriv,
           Judgement.mk (.var "b") (.var "Y") none defaultDeriv]
  concl := Judgement.mk (.concat (.var "a") (.var "b")) (.var "X")
             none defaultDeriv
  semFn := semApply 0 1
  raiser := false

/-- `CompositionLeft` (`"B<"`): `b : Y \ Z` and `a : X \ Y` yield
`b a : X \ Z`; semantics `λx. s_a (s_b x)`. -/
def CompositionLeft : Inference where
  name := "B<"
  hyps := [Judgement.mk (.var "b") (.composite false (.var "Y") (.var "Z"))
             none defaultDeriv,
           Judgement.mk (.var "a") (.composite false (.var "X") (.var "Y"))
             none defaultDeriv]
  concl := Judgement.mk (.concat (.var "b") (.var "a"))
             (.composite false (.var "X") (.var "Z")) none defaultDeriv
  semFn := semCompose 1 0
  raiser := false

/-- `CompositionRight` (`"B>"`): `a : X / Y` and `b : Y / Z` yield
`a b : X / Z`; semantics `λx. s_a (s_b x)`. -/
def CompositionRight : Inference where
  name := "B>"
  hyps := [Judgement.mk (.var "a") (.composite true (.var "X") (.var "Y"))
             none defaultDeriv,
           Judgement.mk (.var "b") (.composite true (.var "Y") (.var "Z"))
             none defaultDeriv]
  concl := Judgement.mk (.concat (.var "a") (.var "b"))
             (.composite true (.var "X") (.var "Z")) none defaultDeriv
  semFn := semCompose 0 1
  raiser := false

/-- `TypeRaisingRight` (named `"T<"` in the source): `a : @X` yields
`a : T_k \ (T_k / X)` drawn with direction `0` outside and `1` inside, with
`T` freshened by the helper. -/
def TypeRaisingRight : Inference where
  name := "T<"
  hyps := [Judgement.mk (.var "a") (.atomicVar "X") none defaultDeriv]
  concl := Judgement.mk (.var "a")
             (.composite false (.var "T")
               (.composite true (.var "T") (.var "X"))) none defaultDeriv
  semFn := semRaise
  raiser := true

/-- `TypeRaisingLeft` (named `"T>"` in the source): `a : @X` yields
`a : T_k / (T_k \ X)` with direction `1` outside and `0` inside. -/
def TypeRaisingLeft : Inference where
  name := "T>"
  hyps := [Judgement.mk (.var "a") (.atomicVar "X") none defaultDeriv]
  concl := Judgement.mk (.var "a")
             (.composite true (.var "T")
               (.composite false (.var "T") (.var "X"))) none defaultDeriv
  semFn := semRaise
  raiser := true

/-- The base combinator set built in `CCGCKYParser`; the Python set literal
`{ApplicationLeft, ApplicationRight, CompositionLeft, CompositionRight}`
iterates in an unspecified order, fixed here (the chart contents as a
multiset do not depend on this order). -/
def baseCombinators : List Inference :=
  [ApplicationLeft, ApplicationRight, CompositionLeft, CompositionRight]

/-! The CKY chart builder (`CCGCKYParser.py`). -/

/-- The chart, `(start, end) -> judgement collection`.  The Python dict holds
a `set` of judgement objects; object identity makes every inserted result a
new element, so a cell is a list here and insertion appends.  Unset keys
(never read by the algorithm) default to the empty list. -/
def Chart : Type := Nat × Nat → List Judgement

def chartGet (ch : Chart) (k : Nat × Nat) : List Judgement := ch k

def chartSet (ch : Chart) (k : Nat × Nat) (v : List Judgement) : Chart :=
  fun x => if x = k then v else ch x

def emptyChart : Chart := fun _ => []

/-- `add_combinations(combinators, left, right, current_chart)`: try every
combinator on the pair and add each successful result to the cell. -/
def addCombinations (fuel : Nat) :
    List Inference → Judgement → Judgement → List Judgement → GState →
    Except RunErr (List Judgement × GState)
  | [], _, _, cur, st => .ok (cur, st)
  | c :: cs, left, right, cur, st => do
      let (res, st') ← inferMatch fuel c [left, right] st
      match res with
      | some j => addCombinations fuel cs left right (cur ++ [j]) st'
      | none => addCombinations fuel cs left right cur st'

/-- The pairs scanned by `compute_chart` for one `(span, start)` cell: for
each split `step` in `range(1, span)`, every `left` from
`chart[(start, mid)]` with every `right` from `chart[(mid, start+span)]`.
The per-step pair lists are concatenated (the Python loops process them in
exactly this order). -/
def spanPairs (ch : Chart) (span start : Nat) : List (Judgement × Judgement) :=
  (List.range' 1 (span - 1)).flatMap (fun step =>
    (chartGet ch (start, start + step)).flatMap (fun left =>
      (chartGet ch (start + step, start + span)).map (fun right => (left, right))))

/-- The body of `compute_chart`'s pair loop: base combinators on the pair,
then (when type raising is on) base combinators on `(left, raised right)` and
on `(raised left, right)`. -/
def processPairs (fuel : Nat) (useTyper : Bool) :
    List (Judgement × Judgement) → List Judgement → GState →
    Except RunErr (List Judgement × GState)
  | [], acc, st => .ok (acc, st)
  | (left, right) :: rest, acc, st => do
      let (acc1, st1) ← addCombinations fuel baseCombinators left right acc st
      let (acc2, st2) ←
        if useTyper then do
          let (nr, st') ← inferMatch fuel TypeRaisingRight [right] st1
          match nr with
          | some newRight =>
              addCombinations fuel baseCombinators left newRight acc1 st'
          | none => pure (acc1, st')
        else pure (acc1, st1)
      let (acc3, st3) ←
        if useTyper then do
          let (nl, st') ← inferMatch fuel TypeRaisingLeft [left] st2
          match nl with
          | some newLeft =>
              addCombinations fuel baseCombinators newLeft right acc2 st'
          | none => pure (acc2, st')
        else pure (acc2, st2)
      processPairs fuel useTyper rest acc3 st3

/-- `compute_chart(combinators, chart, span, start, use_typer)`: collect the
results over all split points into a fresh cell. -/
def computeChart (fuel : Nat) (ch : Chart) (span start : Nat)
    (useTyper : Bool) (st : GState) : Except RunErr (List Judgement × GState) :=
  processPairs fuel useTyper (spanPairs ch span start) [] st

/-- The lexicon, `ccg.rules`: token text to its list of lexical judgements. -/
abbrev Lexicon : Type := List (String × List Judgement)

def lookupLex : Lexicon → String → Option (List Judgement)
  | [], _ => none
  | (k, v) :: rest, n => if k = n then some v else lookupLex rest n

/-- The terminal-seeding loop of `CCGCKYParser`: cell `(i, i+1)` receives the
lexicon entries of token `i`; a token without an entry raises `TokenError`
immediately. -/
def seedChart (lex : Lexicon) : List String → Nat → Chart → Except RunErr Chart
  | [], _, ch => .ok ch
  | t :: rest, i, ch =>
    match lookupLex lex t with
    | none => .error (.tokenError t)
    | some js => seedChart lex rest (i + 1) (chartSet ch (i, i + 1) js)

/-- The span/start double loop of `CCGCKYParser`, flattened to a list of
`(span, start)` cells in loop order. -/
def spanList (n : Nat) : List (Nat × Nat) :=
  (List.range' 2 (n - 1)).flatMap (fun span =>
    (List.range (n - span + 1)).map (fun start => (span, start)))

/-- Fill the chart cells in `spanList` order. -/
def buildSpans (fuel : Nat) (useTyper : Bool) :
    List (Nat × Nat) → Chart → GState → Except RunErr (Chart × GState)
  | [], ch, st => .ok (ch, st)
  | (span, start) :: rest, ch, st => do
      let (cell, st') ← computeChart fuel ch span start useTyper st
      buildSpans fuel useTyper rest (chartSet ch (start, start + span) cell) st'

/-- Explicit derivation trees (`CKYDerivation`): the current judgement, the
already-reconstructed sub-derivations (`None` at a leaf) and the combinator
used (the source stores the `Inference` object; its name is stored here). -/
inductive CKYDerivation : Type where
  | mk (current : Judgement) (past : Option (List CKYDerivation))
       (combinator : Option String)

/-! `reconstruct(parses)`: for every parse and every record of its forest,
emit one tree; a record with a backpointer recursively reconstructs the
stored child list into the single `past` field of that one tree, a leaf
record yields a leaf tree. -/
mutual

def reconstruct : List Judgement → List CKYDerivation
  | [] => []
  | Judgement.mk e t s ders :: ps =>
      reconstructRecords (Judgement.mk e t s ders) ders ++ reconstruct ps

def reconstructRecords (parse : Judgement) : List DRecord → List CKYDerivation
  | [] => []
  | DRecord.mk _ none :: rest =>
      CKYDerivation.mk parse none none :: reconstructRecords parse rest
  | DRecord.mk _ (some (DInfo.mk rn _ children)) :: rest =>
      CKYDerivation.mk parse (some (reconstruct children)) (some rn) ::
        reconstructRecords parse rest

end

/-- Python `str.isspace` characters, restricted to ASCII. -/
def isPySpace (c : Char) : Bool :=
  c = ' ' || c = '\t' || c = '\n' || c = '\r' || c = '\x0b' || c = '\x0c'

/-- Helper for `pySplit`: scan the characters, collecting the current token
(in reverse) and flushing it at every whitespace run. -/
def splitTokens : List Char → List Char → List String
  | [], acc => if acc.isEmpty then [] else [String.mk acc.reverse]
  | c :: cs, acc =>
    if isPySpace c then
      (if acc.isEmpty then splitTokens cs [] else
        String.mk acc.reverse :: splitTokens cs [])
    else splitTokens cs (c :: acc)

/-- `input_string.strip().split()`: whitespace-delimited tokens with empty
pieces dropped (`str.split` with no argument splits on whitespace runs and
ignores leading/trailing whitespace, which the preceding `strip` also
removes). -/
def pySplit (s : String) : List String := splitTokens s.toList []

/-- The guard `not input_string or input_string.isspace()` of `CCGCKYParser`
(`isspace` is true for a non-empty all-whitespace string). -/
def blankInput (s : String) : Bool :=
  s.isEmpty || (!s.isEmpty && s.toList.all isPySpace)

/-- Chart construction of `CCGCKYParser`: seed the unit cells from the
lexicon, then fill increasing spans. -/
def runChart (fuel : Nat) (lex : Lexicon) (tokens : List String)
    (useTyper : Bool) (st : GState) : Except RunErr (Chart × GState) := do
  let ch ← seedChart lex tokens 0 emptyChart
  buildSpans fuel useTyper (spanList tokens.length) ch st

/-- `CCGCKYParser(ccg, input_string, use_typer)`: reject blank input, split
into tokens, build the chart, filter the full-span cell by the goal
category's display form and reconstruct the explicit derivations. -/
def ccgParser (fuel : Nat) (lex : Lexicon) (terminal : String)
    (input : String) (useTyper : Bool) (st : GState) :
    Except RunErr (List CKYDerivation × GState) :=
  if blankInput input then .error .emptyInput
  else do
    let tokens := pySplit input
    let (ch, st') ← runChart fuel lex tokens useTyper st
    let parses := (chartGet ch (0, tokens.length)).filter
      (fun j => j.type.render == terminal)
    pure (reconstruct parses, st')

/-! Auxiliary definitions used to state and prove the claims. -/

/-- A category with no annotated node. -/
def CCGType.annotFree : CCGType → Bool
  | .var _ => true
  | .atomicVar _ => true
  | .atomic _ => true
  | .composite _ l r => l.annotFree && r.annotFree
  | .annot _ _ => false

/-- A category with no variable (neither `CCGTypeVar` nor
`CCGTypeAtomicVar`). -/
def CCGType.ground : CCGType → Bool
  | .var _ => false
  | .atomicVar _ => false
  | .atomic _ => true
  | .composite _ l r => l.ground && r.ground
  | .annot t _ => t.ground

/-- The variable names occurring in a category. -/
def CCGType.varsT : CCGType → List String
  | .var n => [n]
  | .atomicVar n => [n]
  | .atomic _ => []
  | .composite _ l r => l.varsT ++ r.varsT
  | .annot t _ => t.varsT

/-- Every value stored in the substitution is variable-free and
annotation-free. -/
def gafValued (σ : TSubst) : Bool :=
  σ.all (fun p => p.2.ground && p.2.annotFree)

/-- No variable of the category is already bound in the substitution. -/
def avoidsDom (a : CCGType) (σ : TSubst) : Bool :=
  a.varsT.all (fun n => (lookupT σ n).isNone)

/-- Pure single-pass replacement (proof helper): when every stored value is
variable-free, `CCGType.replace` never chases and agrees with this total
function. -/
def replP (σ : TSubst) : CCGType → CCGType
  | .var n => (lookupT σ n).getD (.var n)
  | .atomicVar n => (lookupT σ n).getD (.atomicVar n)
  | .atomic n => .atomic n
  | .composite d l r => .composite d (replP σ l) (replP σ r)
  | .annot t f => .annot (replP σ t) f

/-- `lookupT σ` and `lookupT σ'` agree on some set of names. -/
def SubstExtends (σ σ' : TSubst) : Prop :=
  ∀ n v, lookupT σ n = some v → lookupT σ' n = some v

/-! The tree count prescribed by the specification, §4.6/§8 ("one explicit
tree per combination of child-tree choices", "the number of explicit trees
reconstructed from a Judgement equals the product, over each derivation
level, of the number of forest alternatives at that level").  This second,
spec-side definition exists only to be compared with `reconstruct`, which is
translated from the source. -/
mutual

def specTreeCount : Judgement → Nat
  | Judgement.mk _ _ _ ders => specTreeCountRecords ders

def specTreeCountRecords : List DRecord → Nat
  | [] => 0
  | DRecord.mk _ none :: rest => 1 + specTreeCountRecords rest
  | DRecord.mk _ (some (DInfo.mk _ _ children)) :: rest =>
      specTreeCountChildren children + specTreeCountRecords rest

def specTreeCountChildren : List Judgement → Nat
  | [] => 1
  | c :: cs => specTreeCount c * specTreeCountChildren cs

end

/-- The value `max(derv["weight"] for derv in t)` computes on a non-empty
tuple (proof helper; `maxWeights` equals `.ok` of this on non-empty input). -/
def pureMaxW : List DRecord → Nat
  | [] => 0
  | r :: rs => rs.foldl (fun acc r' => Nat.max acc r'.weight) r.weight

/-- The first token of the list that has no lexicon entry. -/
def firstMissing (lex : Lexicon) : List String → Option String
  | [] => none
  | t :: rest =>
    match lookupLex lex t with
    | none => some t
    | some _ => firstMissing lex rest

/-! Erasing semantic values (proof helper).  The fresh-name counter of the
lambda evaluator is process-wide, so semantic values computed for one and the
same chart entry may receive different bound-variable names in two different
runs; everything the parser branches on (expressions, categories, forest
shapes and weights) is preserved by this erasure. -/
mutual

def eraseJ : Judgement → Judgement
  | Judgement.mk e t _ ders => Judgement.mk e t none (eraseRecs ders)

def eraseRecs : List DRecord → List DRecord
  | [] => []
  | r :: rest => eraseRec r :: eraseRecs rest

def eraseRec : DRecord → DRecord
  | DRecord.mk w none => DRecord.mk w none
  | DRecord.mk w (some (DInfo.mk rn σ ch)) =>
      DRecord.mk w (some (DInfo.mk rn σ (eraseList ch)))

def eraseList : List Judgement → List Judgement
  | [] => []
  | j :: js => eraseJ j :: eraseList js

end

/-- Sublist up to a relation on elements (proof helper): `RelSub R l₁ l₂`
holds when `l₁` embeds into `l₂` in order, matched elements related by `R`. -/
inductive RelSub (R : α → α → Prop) : List α → List α → Prop
  | nil : RelSub R [] []
  | cons {l₁ l₂ : List α} (a₂ : α) : RelSub R l₁ l₂ → RelSub R l₁ (a₂ :: l₂)
  | cons₂ {l₁ l₂ : List α} {a₁ a₂ : α} :
      RelSub R l₁ l₂ → R a₁ a₂ → RelSub R (a₁ :: l₁) (a₂ :: l₂)

/-- The element relation used for chart cells: equal up to semantic values. -/
def RJ (j₁ j₂ : Judgement) : Prop := eraseJ j₁ = eraseJ j₂

/-- The element relation used for split-point pairs. -/
def RP (p₁ p₂ : Judgement × Judgement) : Prop :=
  eraseJ p₁.1 = eraseJ p₂.1 ∧ eraseJ p₁.2 = eraseJ p₂.2

/-- Pointwise `RelSub RJ` between two charts. -/
def ChartRel (chN chT : Chart) : Prop :=
  ∀ k, RelSub RJ (chartGet chN k) (chartGet chT k)

/-! Concrete material for the claims' counterexamples and witnesses. -/

/-- A lexical judgement `"a" => S` as built by the grammar loader. -/
def dupJudgement : Judgement :=
  Judgement.mk (.str "a") (.atomic "S") none defaultDeriv

/-- A lexicon in which the token `"a"` has the same entry twice (a grammar
with a duplicated line produces exactly this `ccg.rules` value). -/
def dupLex : Lexicon := [("a", [dupJudgement, dupJudgement])]

/-- A judgement whose forest holds two lexical leaf records. -/
def twoLeafChild : Judgement :=
  Judgement.mk (.str "u") (.atomic "NP") none [DRecord.mk 1 none, DRecord.mk 1 none]

/-- A judgement with a single derivation record over `twoLeafChild`. -/
def oneRecordParent : Judgement :=
  Judgement.mk (.str "w") (.atomic "S") none
    [DRecord.mk 1 (some (DInfo.mk "<" emptySubst [twoLeafChild]))]

/-!
## Theorems

General helper lemmas first, then the claims, in order.
-/

theorem exceptBind_ok {α β : Type} (a : α) (f : α → Except RunErr β) :
    (Except.ok a >>= f) = f a := rfl

theorem exceptBind_err {α β : Type} (e : RunErr) (f : α → Except RunErr β) :
    ((Except.error e : Except RunErr α) >>= f) = Except.error e := rfl

theorem exceptPure_eq {α : Type} (a : α) :
    (pure a : Except RunErr α) = Except.ok a := rfl

theorem sum_map_const {α : Type} (l : List α) (c : Nat) :
    (l.map (fun _ => c)).sum = l.length * c := by
  induction l with
  | nil => simp
  | cons a rest ih => simp [ih, Nat.succ_mul, Nat.add_comm]

theorem listProd_length {α : Type} (ls : List (List α)) :
    (listProd ls).length = (ls.map List.length).prod := by
  induction ls with
  | nil => rfl
  | cons xs rest ih =>
      simp only [listProd, List.length_flatMap, Function.comp_def,
        List.length_map, sum_map_const, ih, List.map_cons, List.prod_cons]

theorem listProd_mem_length {α : Type} {ls : List (List α)} {t : List α}
    (h : t ∈ listProd ls) : t.length = ls.length := by
  induction ls generalizing t with
  | nil => simp [listProd] at h; simp [h]
  | cons xs rest ih =>
      simp [listProd, List.mem_flatMap] at h
      obtain ⟨x, -, t', ht', rfl⟩ := h
      simp [ih ht']

theorem mapM_ok_of_forall {α β : Type} (l : List α) (f : α → Except RunErr β)
    (g : α → β) (h : ∀ a ∈ l, f a = .ok (g a)) : l.mapM f = .ok (l.map g) := by
  induction l with
  | nil => rfl
  | cons a rest ih =>
      simp only [List.mapM_cons, List.map_cons]
      rw [h a (by simp)]
      rw [show (rest.mapM f) = .ok (rest.map g) from ih (fun a ha => h a (by simp [ha]))]
      rfl

theorem maxWeights_ok {t : List DRecord} (h : t ≠ []) :
    maxWeights t = .ok (pureMaxW t) := by
  cases t with
  | nil => exact absurd rfl h
  | cons r rs => rfl

/-- C9: matching against a `Concat` pattern raises `ConcatError` (modelled as
`.error (.concatMatch data)`) for every data expression and substitution; it
never returns a boolean, so it never succeeds and is never silently
absorbed. -/
theorem concat_pattern_match_raises (l r data : CCGExpr) (σ : ESubst) :
    CCGExpr.matchE (.concat l r) data σ = .error (.concatMatch data) := rfl

/-- C10: unification failure is not atomic in `sigma`: for the two composite
categories `($X / A)` and `(B \ A)` — different directions, unifiable left
operands — `unify` returns `false` while having extended the substitution
with the binding `X ↦ B` recorded by the left-operand unification. -/
theorem unify_failure_nonatomic_sigma :
    CCGType.unify 3 (.composite true (.var "X") (.atomic "A"))
        (.composite false (.atomic "B") (.atomic "A")) [] =
      .ok (false, [("X", CCGType.atomic "B")]) ∧
    ([("X", CCGType.atomic "B")] : TSubst) ≠ ([] : TSubst) :=
  ⟨rfl, by simp⟩

/-- C3 counterexample: unifying the variable `$X` with itself returns
`false` (the source's `(CCGTypeVar, CCGTypeVar)` case only sets the result
inside `if name1 != name2`), refuting the claim that it returns `true`. -/
theorem var_self_unify_returns_false :
    CCGType.unify 5 (.var "X") (.var "X") [] = .ok (false, ([] : TSubst)) := rfl

/-- C3 amended: unifying two `Variable`s returns `false` and adds no binding
when the names are equal, and binds the first name to the second variable
(returning `true`) when they differ. -/
theorem var_var_unify_amended (fuel : Nat) (n1 n2 : String) (σ : TSubst) :
    CCGType.unify (fuel + 1) (.var n1) (.var n2) σ =
      .ok (if n1 = n2 then (false, σ) else (true, updT σ n1 (.var n2))) := by
  by_cases h : n1 = n2 <;> simp [CCGType.unify, h]

/-- C8: an input that is empty or all-whitespace is rejected with the
`Empty input` error for every lexicon, goal, mode and counter state — in
particular before any lexicon lookup or chart-cell seeding can happen, since
the result does not depend on the lexicon at all. -/
theorem blank_input_rejected (fuel : Nat) (lex : Lexicon)
    (terminal input : String) (useTyper : Bool) (st : GState)
    (h : input.toList.all isPySpace = true) :
    ccgParser fuel lex terminal input useTyper st = .error .emptyInput := by
  have hb : blankInput input = true := by
    unfold blankInput
    cases hi : input.isEmpty with
    | true => simp
    | false =>
        simp only [hi, Bool.not_false, Bool.true_and, Bool.false_or]
        exact h
  unfold ccgParser
  simp [hb]

theorem blank_input_rejected_witness :
    ("  ".toList.all isPySpace = true) ∧
      ccgParser 1 [] "S" "  " false ⟨0, 0⟩ = .error .emptyInput :=
  ⟨by decide, blank_input_rejected 1 [] "S" "  " false ⟨0, 0⟩ (by decide)⟩

theorem seedChart_missing (lex : Lexicon) (t : String) :
    ∀ (tokens : List String) (i : Nat) (ch : Chart),
      firstMissing lex tokens = some t →
      seedChart lex tokens i ch = .error (.tokenError t) := by
  intro tokens
  induction tokens with
  | nil => intro i ch h; simp [firstMissing] at h
  | cons t0 rest ih =>
      intro i ch h
      unfold firstMissing at h
      unfold seedChart
      cases hl : lookupLex lex t0 with
      | none => rw [hl] at h; simp at h; simp [h]
      | some js => rw [hl] at h; simp at h; exact ih (i + 1) _ h

theorem firstMissing_exists (lex : Lexicon) (t : String) :
    ∀ tokens : List String, t ∈ tokens → lookupLex lex t = none →
      ∃ t', firstMissing lex tokens = some t' ∧ lookupLex lex t' = none ∧
        t' ∈ tokens := by
  intro tokens
  induction tokens with
  | nil => intro h; simp at h
  | cons t0 rest ih =>
      intro hmem hnone
      unfold firstMissing
      cases hl : lookupLex lex t0 with
      | none => exact ⟨t0, rfl, hl, by simp⟩
      | some js =>
          have hne : t ≠ t0 := fun he => by rw [he, hl] at hnone; cases hnone
          have hrest : t ∈ rest := by
            cases List.mem_cons.mp hmem with
            | inl h => exact absurd h hne
            | inr h => exact h
          obtain ⟨t', h1, h2, h3⟩ := ih hrest hnone
          exact ⟨t', h1, h2, by simp [h3]⟩

/-- C7: for every non-blank input containing a token with no lexicon entry,
the parser stops with a `TokenError` reporting an offending (entry-less)
token of the input; no result is produced. -/
theorem token_error_on_missing (fuel : Nat) (lex : Lexicon)
    (terminal input : String) (useTyper : Bool) (st : GState) (t : String)
    (hb : blankInput input = false)
    (htok : t ∈ pySplit input) (hmiss : lookupLex lex t = none) :
    ∃ t', ccgParser fuel lex terminal input useTyper st =
        .error (.tokenError t') ∧
      lookupLex lex t' = none ∧ t' ∈ pySplit input := by
  obtain ⟨t', h1, h2, h3⟩ := firstMissing_exists lex t (pySplit input) htok hmiss
  refine ⟨t', ?_, h2, h3⟩
  unfold ccgParser
  simp only [hb, Bool.false_eq_true, if_false]
  unfold runChart
  rw [seedChart_missing lex t' (pySplit input) 0 emptyChart h1]
  rfl

theorem token_error_on_missing_witness :
    (blankInput "b" = false) ∧ ("b" ∈ pySplit "b") ∧
      (lookupLex dupLex "b" = none) ∧
      (∃ t', ccgParser 3 dupLex "S" "b" false ⟨0, 0⟩ =
          .error (.tokenError t') ∧
        lookupLex dupLex t' = none ∧ t' ∈ pySplit "b") :=
  ⟨by decide, by rw [show pySplit "b" = ["b"] from rfl]; exact List.mem_singleton.mpr rfl, rfl,
    token_error_on_missing 3 dupLex "S" "b" false ⟨0, 0⟩ "b"
      (by decide)
      (by rw [show pySplit "b" = ["b"] from rfl]; exact List.mem_singleton.mpr rfl)
      rfl⟩

/-- C2 (code bug): with a lexicon in which token `"a"` has two identical
entries, the chart cell `(0, 1)` holds two distinct entries with an equal
(expression, category) pair, each carrying a one-record forest — the merge
invariant (one merged entry whose forest sizes add up) does not hold. -/
theorem chart_cell_duplicates_not_merged :
    (runChart 5 dupLex ["a"] false ⟨0, 0⟩).map (fun p => chartGet p.1 (0, 1)) =
      .ok [dupJudgement, dupJudgement] ∧
    ¬ List.Pairwise
        (fun x y : Judgement => ¬(x.expr = y.expr ∧ x.type = y.type))
        [dupJudgement, dupJudgement] ∧
    dupJudgement.derivation.length = 1 := by
  refine ⟨rfl, ?_, rfl⟩
  intro h
  exact (List.pairwise_cons.mp h).1 dupJudgement (by simp) ⟨rfl, rfl⟩

/-- C4: `deriving` builds the new forest as the cross product of the input
judgements' forests — one record per tuple of `itertools.product`, paired by
`Forall₂` with the tuple list, whose length is the product of the input
forest sizes; each record's weight is the `max` over its tuple and its
backpointer stores the rule, the substitution and the children. -/
theorem deriving_cross_product (j : Judgement) (rn : String) (σ : Subst)
    (children : List Judgement) (sem : Option LambdaTerm)
    (h : children ≠ []) :
    ∃ j', derivingJ j rn σ children sem = .ok j' ∧
      j'.derivation.length =
        (children.map (fun c => c.derivation.length)).prod ∧
      List.Forall₂ (fun (r : DRecord) (t : List DRecord) =>
          maxWeights t = .ok r.weight ∧
          r.info = some (DInfo.mk rn σ children))
        j'.derivation (listProd (children.map Judgement.derivation)) := by
  have hne : ∀ t ∈ listProd (children.map Judgement.derivation), t ≠ [] := by
    intro t ht hempty
    have hl := listProd_mem_length ht
    rw [hempty] at hl
    simp only [List.length_nil, List.length_map] at hl
    exact h (List.length_eq_zero.mp hl.symm)
  have hmapM :
      (listProd (children.map Judgement.derivation)).mapM
        (fun t => do
          let w ← maxWeights t
          pure (DRecord.mk w (some (DInfo.mk rn σ children)))) =
      .ok ((listProd (children.map Judgement.derivation)).map
        (fun t => DRecord.mk (pureMaxW t) (some (DInfo.mk rn σ children)))) := by
    refine mapM_ok_of_forall _ _ _ (fun t ht => ?_)
    rw [maxWeights_ok (hne t ht)]
    rfl
  refine ⟨Judgement.mk j.expr j.type sem
      ((listProd (children.map Judgement.derivation)).map
        (fun t => DRecord.mk (pureMaxW t) (some (DInfo.mk rn σ children)))),
    ?_, ?_, ?_⟩
  · unfold derivingJ
    rw [hmapM]
    rfl
  · simp only [Judgement.derivation, List.length_map, listProd_length,
      List.map_map]
    rfl
  · simp only [Judgement.derivation]
    rw [List.forall₂_map_left_iff]
    rw [List.forall₂_same]
    intro t ht
    exact ⟨maxWeights_ok (hne t ht), rfl⟩

theorem deriving_cross_product_witness :
    (([dupJudgement] : List Judgement) ≠ []) ∧
      (∃ j', derivingJ dupJudgement "<" emptySubst [dupJudgement] none = .ok j' ∧
        j'.derivation.length =
          (([dupJudgement] : List Judgement).map
            (fun c => c.derivation.length)).prod ∧
        List.Forall₂ (fun (r : DRecord) (t : List DRecord) =>
            maxWeights t = .ok r.weight ∧
            r.info = some (DInfo.mk "<" emptySubst [dupJudgement]))
          j'.derivation
          (listProd (([dupJudgement] : List Judgement).map
            Judgement.derivation))) :=
  ⟨by simp, deriving_cross_product dupJudgement "<" emptySubst [dupJudgement]
    none (by simp)⟩

theorem reconstructRecords_length (parse : Judgement) (rs : List DRecord) :
    (reconstructRecords parse rs).length = rs.length := by
  induction rs with
  | nil => rfl
  | cons r rest ih =>
      cases r with
      | mk w info =>
        cases info with
        | none => simp [reconstructRecords, ih]
        | some i =>
            cases i with
            | mk rn σ ch => simp [reconstructRecords, ih]

theorem reconstruct_length_eq (ps : List Judgement) :
    (reconstruct ps).length = (ps.map (fun p => p.derivation.length)).sum := by
  induction ps with
  | nil => rfl
  | cons p rest ih =>
      cases p with
      | mk e t s ders =>
          simp [reconstruct, reconstructRecords_length, ih, Judgement.derivation]

/-- C5 counterexample: a judgement whose single forest record points at a
child with a two-record forest reconstructs to exactly one tree, while the
specification's level-product count prescribes two. -/
theorem reconstruction_cartesian_counterexample :
    (reconstruct [oneRecordParent]).length = 1 ∧
      specTreeCount oneRecordParent = 2 ∧ (1 : Nat) ≠ 2 :=
  ⟨rfl, rfl, by decide⟩

/-- C5 amended: reconstruction yields exactly one explicit tree per forest
record of each judgement (child alternatives are flattened into the single
tree's `past` list, not expanded into combinations); in particular a
judgement whose forest is the single lexical leaf record yields exactly one
tree. -/
theorem reconstruct_one_tree_per_record (ps : List Judgement) :
    (reconstruct ps).length = (ps.map (fun p => p.derivation.length)).sum ∧
    ∀ (e : CCGExpr) (t : CCGType) (s : Option LambdaTerm),
      (reconstruct [Judgement.mk e t s defaultDeriv]).length = 1 := by
  refine ⟨reconstruct_length_eq ps, fun e t s => ?_⟩
  simp [reconstruct_length_eq, defaultDeriv, Judgement.derivation]

/-! Lemmas towards the amended unification-soundness claim (C1). -/

theorem lookupT_gaf {σ : TSubst} (hσ : gafValued σ = true) {n : String}
    {v : CCGType} (h : lookupT σ n = some v) :
    v.ground = true ∧ v.annotFree = true := by
  induction σ with
  | nil => simp [lookupT] at h
  | cons p rest ih =>
      obtain ⟨k, w⟩ := p
      simp only [gafValued, List.all_cons, Bool.and_eq_true] at hσ
      unfold lookupT at h
      by_cases hk : k = n
      · rw [if_pos hk] at h
        cases h
        exact hσ.1
      · rw [if_neg hk] at h
        exact ih hσ.2 h

theorem ground_varsT_nil {t : CCGType} (h : t.ground = true) : t.varsT = [] := by
  induction t with
  | var n => simp [CCGType.ground] at h
  | atomicVar n => simp [CCGType.ground] at h
  | atomic n => rfl
  | composite d l r ihl ihr =>
      simp only [CCGType.ground, Bool.and_eq_true] at h
      simp [CCGType.varsT, ihl h.1, ihr h.2]
  | annot t f ih =>
      simp only [CCGType.ground] at h
      simp [CCGType.varsT, ih h]

theorem ground_replace {t : CCGType} (h : t.ground = true) :
    ∀ (f : Nat) (σ : TSubst), CCGType.replace f σ t = .ok t := by
  induction t with
  | var n => simp [CCGType.ground] at h
  | atomicVar n => simp [CCGType.ground] at h
  | atomic n => intro f σ; rfl
  | composite d l r ihl ihr =>
      intro f σ
      simp only [CCGType.ground, Bool.and_eq_true] at h
      simp [CCGType.replace, ihl h.1, ihr h.2, exceptBind_ok]
  | annot t fe ih =>
      intro f σ
      simp only [CCGType.ground] at h
      simp [CCGType.replace, ih h, exceptBind_ok]

theorem ground_replP {t : CCGType} (h : t.ground = true) (σ : TSubst) :
    replP σ t = t := by
  induction t with
  | var n => simp [CCGType.ground] at h
  | atomicVar n => simp [CCGType.ground] at h
  | atomic n => rfl
  | composite d l r ihl ihr =>
      simp only [CCGType.ground, Bool.and_eq_true] at h
      simp [replP, ihl h.1, ihr h.2]
  | annot t fe ih =>
      simp only [CCGType.ground] at h
      simp [replP, ih h]

theorem gaf_replace_eq {σ : TSubst} (hσ : gafValued σ = true) :
    ∀ (t : CCGType) (f : Nat), CCGType.replace f σ t = .ok (replP σ t) := by
  intro t
  induction t with
  | var n =>
      intro f
      unfold CCGType.replace replP chaseT
      cases h : lookupT σ n with
      | none => rfl
      | some v =>
          have hv := (lookupT_gaf hσ h).1
          cases v with
          | var m => simp [CCGType.ground] at hv
          | atomicVar m => rfl
          | atomic m => rfl
          | composite d l r => rfl
          | annot t fe => rfl
  | atomicVar n => intro f; rfl
  | atomic n => intro f; rfl
  | composite d l r ihl ihr =>
      intro f
      simp [CCGType.replace, replP, ihl, ihr, exceptBind_ok]
  | annot t fe ih =>
      intro f
      simp [CCGType.replace, replP, ih, exceptBind_ok]

theorem replP_agree {σ σ' : TSubst} :
    ∀ {t : CCGType}, (∀ n ∈ t.varsT, lookupT σ' n = lookupT σ n) →
      replP σ' t = replP σ t := by
  intro t
  induction t with
  | var n => intro h; simp [replP, h n (by simp [CCGType.varsT])]
  | atomicVar n => intro h; simp [replP, h n (by simp [CCGType.varsT])]
  | atomic n => intro h; rfl
  | composite d l r ihl ihr =>
      intro h
      simp only [CCGType.varsT, List.mem_append] at h
      simp [replP, ihl (fun n hn => h n (Or.inl hn)),
        ihr (fun n hn => h n (Or.inr hn))]
  | annot t fe ih =>
      intro h
      simp only [CCGType.varsT] at h
      simp [replP, ih h]

theorem replP_ground_vars {σ : TSubst} :
    ∀ {t : CCGType}, (replP σ t).ground = true →
      ∀ n ∈ t.varsT, ∃ v, lookupT σ n = some v := by
  intro t
  induction t with
  | var m =>
      intro hg n hn
      simp only [CCGType.varsT, List.mem_singleton] at hn
      subst hn
      cases h : lookupT σ n with
      | none => rw [show replP σ (.var n) = .var n from by simp [replP, h]] at hg
                simp [CCGType.ground] at hg
      | some v => exact ⟨v, rfl⟩
  | atomicVar m =>
      intro hg n hn
      simp only [CCGType.varsT, List.mem_singleton] at hn
      subst hn
      cases h : lookupT σ n with
      | none => rw [show replP σ (.atomicVar n) = .atomicVar n from by simp [replP, h]] at hg
                simp [CCGType.ground] at hg
      | some v => exact ⟨v, rfl⟩
  | atomic m => intro _ n hn; simp [CCGType.varsT] at hn
  | composite d l r ihl ihr =>
      intro hg n hn
      simp only [replP, CCGType.ground, Bool.and_eq_true] at hg
      simp only [CCGType.varsT, List.mem_append] at hn
      cases hn with
      | inl hn => exact ihl hg.1 n hn
      | inr hn => exact ihr hg.2 n hn
  | annot t fe ih =>
      intro hg n hn
      simp only [replP, CCGType.ground] at hg
      exact ih hg n hn

theorem replP_vars_sub {σ : TSubst} (hσ : gafValued σ = true) :
    ∀ {t : CCGType}, ∀ n ∈ (replP σ t).varsT,
      lookupT σ n = none ∧ n ∈ t.varsT := by
  intro t
  induction t with
  | var m =>
      intro n hn
      cases h : lookupT σ m with
      | none =>
          rw [show replP σ (.var m) = .var m from by simp [replP, h]] at hn
          simp only [CCGType.varsT, List.mem_singleton] at hn
          subst hn
          exact ⟨h, by simp [CCGType.varsT]⟩
      | some v =>
          rw [show replP σ (.var m) = v from by simp [replP, h]] at hn
          rw [ground_varsT_nil (lookupT_gaf hσ h).1] at hn
          simp at hn
  | atomicVar m =>
      intro n hn
      cases h : lookupT σ m with
      | none =>
          rw [show replP σ (.atomicVar m) = .atomicVar m from by simp [replP, h]] at hn
          simp only [CCGType.varsT, List.mem_singleton] at hn
          subst hn
          exact ⟨h, by simp [CCGType.varsT]⟩
      | some v =>
          rw [show replP σ (.atomicVar m) = v from by simp [replP, h]] at hn
          rw [ground_varsT_nil (lookupT_gaf hσ h).1] at hn
          simp at hn
  | atomic m => intro n hn; simp [replP, CCGType.varsT] at hn
  | composite d l r ihl ihr =>
      intro n hn
      simp only [replP, CCGType.varsT, List.mem_append] at hn
      cases hn with
      | inl hn => exact ⟨(ihl n hn).1, by simp [CCGType.varsT, (ihl n hn).2]⟩
      | inr hn => exact ⟨(ihr n hn).1, by simp [CCGType.varsT, (ihr n hn).2]⟩
  | annot t fe ih =>
      intro n hn
      simp only [replP, CCGType.varsT] at hn
      exact ih n hn

theorem annotFree_replP {σ : TSubst} (hσ : gafValued σ = true) :
    ∀ {t : CCGType}, t.annotFree = true → (replP σ t).annotFree = true := by
  intro t
  induction t with
  | var n =>
      intro _
      cases h : lookupT σ n with
      | none => simp [replP, h, CCGType.annotFree]
      | some v => simp [replP, h, (lookupT_gaf hσ h).2]
  | atomicVar n =>
      intro _
      cases h : lookupT σ n with
      | none => simp [replP, h, CCGType.annotFree]
      | some v => simp [replP, h, (lookupT_gaf hσ h).2]
  | atomic n => intro _; rfl
  | composite d l r ihl ihr =>
      intro h
      simp only [CCGType.annotFree, Bool.and_eq_true] at h
      simp [replP, CCGType.annotFree, ihl h.1, ihr h.2]
  | annot t fe ih => intro h; simp [CCGType.annotFree] at h

theorem substExtends_refl (σ : TSubst) : SubstExtends σ σ := fun _ _ h => h

theorem substExtends_trans {σ₁ σ₂ σ₃ : TSubst} (h₁ : SubstExtends σ₁ σ₂)
    (h₂ : SubstExtends σ₂ σ₃) : SubstExtends σ₁ σ₃ :=
  fun n v h => h₂ n v (h₁ n v h)

theorem substExtends_update {σ : TSubst} {n : String}
    (h : lookupT σ n = none) (v : CCGType) :
    SubstExtends σ ((n, v) :: σ) := by
  intro m w hm
  unfold lookupT
  by_cases hk : n = m
  · subst hk; rw [h] at hm; cases hm
  · rw [if_neg hk]; exact hm

theorem gaf_update {σ : TSubst} (hσ : gafValued σ = true) {v : CCGType}
    (hg : v.ground = true) (ha : v.annotFree = true) (n : String) :
    gafValued ((n, v) :: σ) = true := by
  unfold gafValued at hσ ⊢
  simp only [List.all_cons, Bool.and_eq_true]
  exact ⟨by simp [hg, ha], hσ⟩

theorem replP_compose {σ σ' : TSubst} (hσ : gafValued σ = true)
    (hext : SubstExtends σ σ') :
    ∀ {t : CCGType}, replP σ' (replP σ t) = replP σ' t := by
  intro t
  induction t with
  | var n =>
      cases h : lookupT σ n with
      | none => simp [replP, h]
      | some v =>
          rw [show replP σ (.var n) = v from by simp [replP, h]]
          rw [show replP σ' (.var n) = v from by simp [replP, hext n v h]]
          exact ground_replP (lookupT_gaf hσ h).1 σ'
  | atomicVar n =>
      cases h : lookupT σ n with
      | none => simp [replP, h]
      | some v =>
          rw [show replP σ (.atomicVar n) = v from by simp [replP, h]]
          rw [show replP σ' (.atomicVar n) = v from by simp [replP, hext n v h]]
          exact ground_replP (lookupT_gaf hσ h).1 σ'
  | atomic n => rfl
  | composite d l r ihl ihr => simp [replP, ihl, ihr]
  | annot t fe ih => simp [replP, ih]

/-- The inductive core of the amended soundness claim: with both sides
annotation-free, the right side variable-free, every stored value
variable-free and annotation-free, and no variable of the left side already
bound, a `unify` run that returns at all leaves the substitution in the same
class, only extends it, and — when it returns `true` — replaces the left
side exactly to the right side. -/
theorem unify_gaf_aux :
    ∀ (fuel : Nat) (a b : CCGType) (σ : TSubst) (res : Bool) (σ' : TSubst),
      a.annotFree = true → b.annotFree = true → b.ground = true →
      gafValued σ = true → avoidsDom a σ = true →
      CCGType.unify fuel a b σ = .ok (res, σ') →
      gafValued σ' = true ∧ SubstExtends σ σ' ∧
        (res = true → replP σ' a = b) := by
  intro fuel
  induction fuel with
  | zero =>
      intro a b σ res σ' _ _ _ _ _ h
      simp [CCGType.unify] at h
  | succ f ih =>
      intro a b σ res σ' hafa hafb hgb hσ hdisj h
      cases b with
      | var m => simp [CCGType.ground] at hgb
      | atomicVar m => simp [CCGType.ground] at hgb
      | annot t2 f2 => simp [CCGType.annotFree] at hafb
      | atomic m =>
          cases a with
          | annot t1 f1 => simp [CCGType.annotFree] at hafa
          | var n =>
              simp only [CCGType.unify, Except.ok.injEq, Prod.mk.injEq] at h
              obtain ⟨hres, hσ'⟩ := h
              subst hres; subst hσ'
              have hnone : lookupT σ n = none := by
                simp only [avoidsDom, CCGType.varsT, List.all_cons,
                  List.all_nil, Bool.and_true] at hdisj
                exact Option.isNone_iff_eq_none.mp hdisj
              refine ⟨gaf_update (v := CCGType.atomic m) hσ rfl rfl n,
                substExtends_update hnone _, ?_⟩
              intro _
              simp [replP, updT, lookupT]
          | atomicVar n =>
              simp only [CCGType.unify, Except.ok.injEq, Prod.mk.injEq] at h
              obtain ⟨hres, hσ'⟩ := h
              subst hres; subst hσ'
              have hnone : lookupT σ n = none := by
                simp only [avoidsDom, CCGType.varsT, List.all_cons,
                  List.all_nil, Bool.and_true] at hdisj
                exact Option.isNone_iff_eq_none.mp hdisj
              refine ⟨gaf_update (v := CCGType.atomic m) hσ rfl rfl n,
                substExtends_update hnone _, ?_⟩
              intro _
              simp [replP, updT, lookupT]
          | atomic n =>
              simp only [CCGType.unify, Except.ok.injEq, Prod.mk.injEq] at h
              obtain ⟨hres, hσ'⟩ := h
              subst hres; subst hσ'
              refine ⟨hσ, substExtends_refl σ, ?_⟩
              intro hd
              have : n = m := of_decide_eq_true hd
              subst this
              rfl
          | composite d1 l1 r1 =>
              simp only [CCGType.unify, Except.ok.injEq, Prod.mk.injEq] at h
              obtain ⟨hres, hσ'⟩ := h
              subst hres; subst hσ'
              exact ⟨hσ, substExtends_refl σ, by simp⟩
      | composite d2 l2 r2 =>
          cases a with
          | annot t1 f1 => simp [CCGType.annotFree] at hafa
          | var n =>
              simp only [CCGType.unify, Except.ok.injEq, Prod.mk.injEq] at h
              obtain ⟨hres, hσ'⟩ := h
              subst hres; subst hσ'
              have hnone : lookupT σ n = none := by
                simp only [avoidsDom, CCGType.varsT, List.all_cons,
                  List.all_nil, Bool.and_true] at hdisj
                exact Option.isNone_iff_eq_none.mp hdisj
              refine ⟨gaf_update hσ hgb hafb n, substExtends_update hnone _, ?_⟩
              intro _
              simp [replP, updT, lookupT]
          | atomicVar n =>
              simp only [CCGType.unify, Except.ok.injEq, Prod.mk.injEq] at h
              obtain ⟨hres, hσ'⟩ := h
              subst hres; subst hσ'
              exact ⟨hσ, substExtends_refl σ, by simp⟩
          | atomic n =>
              simp only [CCGType.unify, Except.ok.injEq, Prod.mk.injEq] at h
              obtain ⟨hres, hσ'⟩ := h
              subst hres; subst hσ'
              exact ⟨hσ, substExtends_refl σ, by simp⟩
          | composite d1 l1 r1 =>
              simp only [CCGType.annotFree, Bool.and_eq_true] at hafa hafb
              simp only [CCGType.ground, Bool.and_eq_true] at hgb
              have hdisjl : avoidsDom l1 σ = true := by
                simp only [avoidsDom, CCGType.varsT, List.all_append,
                  Bool.and_eq_true] at hdisj ⊢
                exact hdisj.1
              simp only [CCGType.unify] at h
              cases hl : CCGType.unify f l1 l2 σ with
              | error e =>
                  rw [hl] at h
                  simp [exceptBind_err] at h
              | ok p =>
                  obtain ⟨ul, σ1⟩ := p
                  rw [hl, exceptBind_ok] at h
                  obtain ⟨hσ1, hext1, hrepl1⟩ :=
                    ih l1 l2 σ ul σ1 hafa.1 hafb.1 hgb.1 hσ hdisjl hl
                  rw [gaf_replace_eq hσ1 r1 f, exceptBind_ok,
                    ground_replace hgb.2 f σ1, exceptBind_ok] at h
                  cases hr : CCGType.unify f (replP σ1 r1) r2 σ1 with
                  | error e =>
                      rw [hr] at h
                      simp [exceptBind_err] at h
                  | ok q =>
                      obtain ⟨ur, σ2⟩ := q
                      rw [hr, exceptBind_ok] at h
                      simp only [Except.ok.injEq, Prod.mk.injEq] at h
                      obtain ⟨hres, hσ'⟩ := h
                      subst hres; subst hσ'
                      have hdisjr : avoidsDom (replP σ1 r1) σ1 = true := by
                        simp only [avoidsDom, List.all_eq_true]
                        intro n hn
                        rw [(replP_vars_sub hσ1 n hn).1]
                        rfl
                      obtain ⟨hσ2, hext2, hrepl2⟩ :=
                        ih (replP σ1 r1) r2 σ1 ur σ2
                          (annotFree_replP hσ1 hafa.2) hafb.2 hgb.2 hσ1 hdisjr hr
                      refine ⟨hσ2, substExtends_trans hext1 hext2, ?_⟩
                      intro hall
                      simp only [Bool.and_eq_true, decide_eq_true_eq] at hall
                      obtain ⟨⟨hdir, hul⟩, hur⟩ := hall
                      have hl2 : replP σ1 l1 = l2 := hrepl1 hul
                      have hl2' : replP σ2 l1 = l2 := by
                        rw [← hl2]
                        apply replP_agree
                        intro n hn
                        obtain ⟨v, hv⟩ :=
                          replP_ground_vars (t := l1) (hl2 ▸ hgb.1) n hn
                        rw [hv, hext2 n v hv]
                      have hr2 : replP σ2 r1 = r2 := by
                        rw [← replP_compose hσ1 hext2]
                        exact hrepl2 hur
                      simp [replP, hl2', hr2, hdir]

/-- C1 amended: when both categories are annotation-free, the right category
is variable-free, the substitution's stored values are variable-free and
annotation-free, and no variable of the left category is already bound, then
a successful `unify` yields a substitution under which `replace` makes the
display forms of the two categories identical (the left side replaces
exactly to the right side). -/
theorem unify_sound_amended (fuel : Nat) (a b : CCGType) (σ σ' : TSubst)
    (hafa : a.annotFree = true) (hafb : b.annotFree = true)
    (hgb : b.ground = true) (hσ : gafValued σ = true)
    (hdisj : avoidsDom a σ = true)
    (h : CCGType.unify fuel a b σ = .ok (true, σ')) :
    ∀ g : Nat, ∃ ra rb, CCGType.replace g σ' a = .ok ra ∧
      CCGType.replace g σ' b = .ok rb ∧ ra.render = rb.render := by
  obtain ⟨hσ', hext, hres⟩ :=
    unify_gaf_aux fuel a b σ true σ' hafa hafb hgb hσ hdisj h
  intro g
  refine ⟨b, b, ?_, ?_, rfl⟩
  · rw [gaf_replace_eq hσ' a g, hres rfl]
  · exact ground_replace hgb g σ'

theorem unify_sound_amended_witness :
    ((CCGType.composite true (.var "X") (.atomicVar "W")).annotFree = true) ∧
    ((CCGType.composite true (.atomic "A") (.atomic "B")).annotFree = true) ∧
    ((CCGType.composite true (.atomic "A") (.atomic "B")).ground = true) ∧
    (gafValued [] = true) ∧
    (avoidsDom (CCGType.composite true (.var "X") (.atomicVar "W")) [] = true) ∧
    (CCGType.unify 9 (.composite true (.var "X") (.atomicVar "W"))
        (.composite true (.atomic "A") (.atomic "B")) [] =
      .ok (true, [("W", CCGType.atomic "B"), ("X", CCGType.atomic "A")])) ∧
    (∀ g : Nat, ∃ ra rb,
      CCGType.replace g [("W", CCGType.atomic "B"), ("X", CCGType.atomic "A")]
          (.composite true (.var "X") (.atomicVar "W")) = .ok ra ∧
      CCGType.replace g [("W", CCGType.atomic "B"), ("X", CCGType.atomic "A")]
          (.composite true (.atomic "A") (.atomic "B")) = .ok rb ∧
      ra.render = rb.render) :=
  ⟨rfl, rfl, rfl, rfl, rfl, rfl,
    unify_sound_amended 9 (.composite true (.var "X") (.atomicVar "W"))
      (.composite true (.atomic "A") (.atomic "B")) []
      [("W", CCGType.atomic "B"), ("X", CCGType.atomic "A")]
      rfl rfl rfl rfl rfl rfl⟩

/-- C1 counterexample: as stated (for every pair of categories and every
substitution) the soundness claim is false.  Two concrete refutations: the
annotation-stripping case unifies `NP` with `NP[f]` leaving the substitution
empty, and the display forms `NP` and `NP[f]` differ; and the annotation-free
pair `($X / A)` and `(($Z / $Z) / $Z)` unifies successfully, yet applying the
resulting substitution displays `(($Z / $Z) / A)` against `((A / A) / A)`,
because `CCGTypeVar.replace` does not substitute inside a bound composite
value. -/
theorem unify_soundness_counterexample :
    (CCGType.unify 9 (.atomic "NP") (.annot (.atomic "NP") "f") [] =
        .ok (true, ([] : TSubst)) ∧
      (CCGType.replace 9 [] (.atomic "NP")).map CCGType.render = .ok "NP" ∧
      (CCGType.replace 9 [] (.annot (.atomic "NP") "f")).map CCGType.render =
        .ok "NP[f]" ∧ ("NP" : String) ≠ "NP[f]") ∧
    (CCGType.unify 9 (.composite true (.var "X") (.atomic "A"))
        (.composite true (.composite true (.var "Z") (.var "Z")) (.var "Z")) [] =
        .ok (true, [("Z", CCGType.atomic "A"),
          ("X", CCGType.composite true (.var "Z") (.var "Z"))]) ∧
      (CCGType.replace 9 [("Z", CCGType.atomic "A"),
          ("X", CCGType.composite true (.var "Z") (.var "Z"))]
        (.composite true (.var "X") (.atomic "A"))).map CCGType.render =
        .ok "(($Z / $Z) / A)" ∧
      (CCGType.replace 9 [("Z", CCGType.atomic "A"),
          ("X", CCGType.composite true (.var "Z") (.var "Z"))]
        (.composite true (.composite true (.var "Z") (.var "Z")) (.var "Z"))).map
          CCGType.render = .ok "((A / A) / A)" ∧
      ("(($Z / $Z) / A)" : String) ≠ "((A / A) / A)") :=
  ⟨⟨rfl, rfl, rfl, by decide⟩, ⟨rfl, rfl, rfl, by decide⟩⟩

/-! Lemmas towards the type-raising monotonicity claim (C6): first sublists
up to a relation, then erasure facts, then congruence of the matching
pipeline under erasure, then monotonicity of the chart computation. -/

theorem RelSub.length_le {R : α → α → Prop} {l₁ l₂ : List α}
    (h : RelSub R l₁ l₂) : l₁.length ≤ l₂.length := by
  induction h with
  | nil => exact Nat.le_refl 0
  | cons a₂ h ih => exact Nat.le_succ_of_le ih
  | cons₂ h _ ih => exact Nat.succ_le_succ ih

theorem relSub_nil_any {R : α → α → Prop} : ∀ l : List α, RelSub R [] l
  | [] => RelSub.nil
  | a :: l => RelSub.cons a (relSub_nil_any l)

theorem RelSub.append {R : α → α → Prop} {l₁ l₂ r₁ r₂ : List α}
    (h : RelSub R l₁ l₂) (h' : RelSub R r₁ r₂) :
    RelSub R (l₁ ++ r₁) (l₂ ++ r₂) := by
  induction h with
  | nil => exact h'
  | cons a₂ h ih => exact RelSub.cons a₂ ih
  | cons₂ h hr ih => exact RelSub.cons₂ ih hr

theorem relSub_of_forall₂ {R : α → α → Prop} {l₁ l₂ : List α}
    (h : List.Forall₂ R l₁ l₂) : RelSub R l₁ l₂ := by
  induction h with
  | nil => exact RelSub.nil
  | cons hr _ ih => exact RelSub.cons₂ ih hr

theorem relSub_self {R : α → α → Prop} (hR : ∀ a, R a a) :
    ∀ l : List α, RelSub R l l
  | [] => RelSub.nil
  | a :: l => RelSub.cons₂ (relSub_self hR l) (hR a)

theorem RelSub.extendR {R : α → α → Prop} {l₁ l₂ : List α}
    (h : RelSub R l₁ l₂) (e : List α) : RelSub R l₁ (l₂ ++ e) := by
  have := RelSub.append h (relSub_nil_any (R := R) e)
  rwa [List.append_nil] at this

theorem relSub_extendL {R : α → α → Prop} {l₁ l₂ : List α}
    (h : RelSub R l₁ l₂) (e : List α) : RelSub R l₁ (e ++ l₂) := by
  induction e with
  | nil => exact h
  | cons a e ih => exact RelSub.cons a ih

theorem relSub_flatMap {R : α → α → Prop} {S : β → β → Prop}
    {l₁ l₂ : List α} {f g : α → List β} (h : RelSub R l₁ l₂)
    (hfg : ∀ a b, R a b → RelSub S (f a) (g b)) :
    RelSub S (l₁.flatMap f) (l₂.flatMap g) := by
  induction h with
  | nil => exact RelSub.nil
  | cons a₂ h ih => exact relSub_extendL ih (g a₂)
  | cons₂ h hr ih => exact RelSub.append (hfg _ _ hr) ih

theorem relSub_map {R : α → α → Prop} {S : β → β → Prop}
    {l₁ l₂ : List α} {f g : α → β} (h : RelSub R l₁ l₂)
    (hfg : ∀ a b, R a b → S (f a) (g b)) :
    RelSub S (l₁.map f) (l₂.map g) := by
  induction h with
  | nil => exact RelSub.nil
  | cons a₂ h ih => exact RelSub.cons (g a₂) ih
  | cons₂ h hr ih => exact RelSub.cons₂ ih (hfg _ _ hr)

theorem relSub_filter {R : α → α → Prop} {l₁ l₂ : List α} (p : α → Bool)
    (hp : ∀ a b, R a b → p a = p b) (h : RelSub R l₁ l₂) :
    RelSub R (l₁.filter p) (l₂.filter p) := by
  induction h with
  | nil => exact RelSub.nil
  | cons a₂ h ih =>
      by_cases hpa : p a₂ = true
      · rw [List.filter_cons_of_pos hpa]
        exact RelSub.cons a₂ ih
      · rw [List.filter_cons_of_neg (by simpa using hpa)]
        exact ih
  | cons₂ h hr ih =>
      rename_i l₁' l₂' a₁ a₂
      by_cases hpa : p a₁ = true
      · rw [List.filter_cons_of_pos hpa,
          List.filter_cons_of_pos (by rw [← hp _ _ hr]; exact hpa)]
        exact RelSub.cons₂ ih hr
      · rw [List.filter_cons_of_neg (by simpa using hpa),
          List.filter_cons_of_neg (by rw [← hp _ _ hr]; simpa using hpa)]
        exact ih

theorem eraseRecs_eq_map (rs : List DRecord) : eraseRecs rs = rs.map eraseRec := by
  induction rs with
  | nil => rfl
  | cons r rest ih => simp [eraseRecs, ih]

theorem eraseList_eq_map (js : List Judgement) : eraseList js = js.map eraseJ := by
  induction js with
  | nil => rfl
  | cons j rest ih => simp [eraseList, ih]

theorem eraseJ_expr (j : Judgement) : (eraseJ j).expr = j.expr := by
  cases j; rfl

theorem eraseJ_type (j : Judgement) : (eraseJ j).type = j.type := by
  cases j; rfl

theorem eraseJ_derivation (j : Judgement) :
    (eraseJ j).derivation = eraseRecs j.derivation := by
  cases j; rfl

theorem eraseRec_weight (r : DRecord) : (eraseRec r).weight = r.weight := by
  cases r with
  | mk w info =>
      cases info with
      | none => rfl
      | some i => cases i; rfl

theorem rj_expr {j₁ j₂ : Judgement} (h : RJ j₁ j₂) : j₁.expr = j₂.expr := by
  have := congrArg Judgement.expr h
  rwa [eraseJ_expr, eraseJ_expr] at this

theorem rj_type {j₁ j₂ : Judgement} (h : RJ j₁ j₂) : j₁.type = j₂.type := by
  have := congrArg Judgement.type h
  rwa [eraseJ_type, eraseJ_type] at this

theorem rj_derivation {j₁ j₂ : Judgement} (h : RJ j₁ j₂) :
    j₁.derivation.map eraseRec = j₂.derivation.map eraseRec := by
  have := congrArg Judgement.derivation h
  rwa [eraseJ_derivation, eraseJ_derivation, eraseRecs_eq_map,
    eraseRecs_eq_map] at this

theorem rj_refl (j : Judgement) : RJ j j := rfl

theorem reconstruct_length_mono {l₁ l₂ : List Judgement}
    (h : RelSub RJ l₁ l₂) :
    (reconstruct l₁).length ≤ (reconstruct l₂).length := by
  rw [reconstruct_length_eq, reconstruct_length_eq]
  induction h with
  | nil => exact Nat.le_refl 0
  | cons a₂ h ih =>
      simp only [List.map_cons, List.sum_cons]
      exact ih.trans (Nat.le_add_left _ _)
  | cons₂ h hr ih =>
      simp only [List.map_cons, List.sum_cons]
      have hlen : _ = _ := congrArg List.length (rj_derivation hr)
      simp only [List.length_map] at hlen
      rw [hlen]
      exact Nat.add_le_add_left ih _

theorem exceptMap_ok {α β : Type} (a : α) (f : α → β) :
    (Except.ok a : Except RunErr α).map f = .ok (f a) := rfl

theorem exceptMap_err {α β : Type} (e : RunErr) (f : α → β) :
    (Except.error e : Except RunErr α).map f = .error e := rfl

theorem forall₂_map_eq {α β : Type} {f g : α → β} :
    ∀ {l₁ l₂ : List α}, List.Forall₂ (fun a b => f a = g b) l₁ l₂ →
      l₁.map f = l₂.map g := by
  intro l₁ l₂ h
  induction h with
  | nil => rfl
  | cons hr _ ih => simp [ih, hr]

theorem forall₂_of_map_eq {α β : Type} {f g : α → β} :
    ∀ {l₁ l₂ : List α}, l₁.map f = l₂.map g →
      List.Forall₂ (fun a b => f a = g b) l₁ l₂ := by
  intro l₁
  induction l₁ with
  | nil =>
      intro l₂ h
      cases l₂ with
      | nil => exact List.Forall₂.nil
      | cons b l₂ => simp at h
  | cons a l₁ ih =>
      intro l₂ h
      cases l₂ with
      | nil => simp at h
      | cons b l₂ =>
          simp only [List.map_cons, List.cons.injEq] at h
          exact List.Forall₂.cons h.1 (ih h.2)

theorem listProd_map {α β : Type} (f : α → β) :
    ∀ ls : List (List α),
      listProd (ls.map (List.map f)) = (listProd ls).map (List.map f) := by
  intro ls
  induction ls with
  | nil => rfl
  | cons xs rest ih =>
      simp only [List.map_cons, listProd, ih, List.flatMap_map,
        List.map_flatMap, List.map_map, Function.comp_def, List.map_cons]

theorem foldl_weights (rs₁ : List DRecord) :
    ∀ (rs₂ : List DRecord) (a : Nat),
      rs₁.map DRecord.weight = rs₂.map DRecord.weight →
      rs₁.foldl (fun acc r => Nat.max acc r.weight) a =
        rs₂.foldl (fun acc r => Nat.max acc r.weight) a := by
  induction rs₁ with
  | nil =>
      intro rs₂ a h
      cases rs₂ with
      | nil => rfl
      | cons r rs => simp at h
  | cons r rs ih =>
      intro rs₂ a h
      cases rs₂ with
      | nil => simp at h
      | cons r₂ rs₂ =>
          simp only [List.map_cons, List.cons.injEq] at h
          simp only [List.foldl_cons, h.1]
          exact ih rs₂ _ h.2

theorem maxWeights_weights {rs₁ rs₂ : List DRecord}
    (h : rs₁.map DRecord.weight = rs₂.map DRecord.weight) :
    maxWeights rs₁ = maxWeights rs₂ := by
  cases rs₁ with
  | nil =>
      cases rs₂ with
      | nil => rfl
      | cons r rs => simp at h
  | cons r rs =>
      cases rs₂ with
      | nil => simp at h
      | cons r₂ rs₂ =>
          simp only [List.map_cons, List.cons.injEq] at h
          simp only [maxWeights, h.1]
          rw [foldl_weights rs rs₂ _ h.2]

theorem weights_of_erase {t₁ t₂ : List DRecord}
    (h : t₁.map eraseRec = t₂.map eraseRec) :
    t₁.map DRecord.weight = t₂.map DRecord.weight := by
  have h' := congrArg (List.map DRecord.weight) h
  rwa [List.map_map, List.map_map,
    show DRecord.weight ∘ eraseRec = DRecord.weight from funext eraseRec_weight]
    at h'

theorem mapM_rel {α β γ : Type} {R : α → α → Prop} (φ : β → γ)
    (f₁ f₂ : α → Except RunErr β) :
    ∀ {l₁ l₂ : List α}, List.Forall₂ R l₁ l₂ →
      (∀ a b, R a b → (f₁ a).map φ = (f₂ b).map φ) →
      (l₁.mapM f₁).map (List.map φ) = (l₂.mapM f₂).map (List.map φ) := by
  intro l₁ l₂ h hf
  induction h with
  | nil => rfl
  | @cons a b l₁' l₂' hr htail ih =>
      simp only [List.mapM_cons]
      have hab := hf a b hr
      cases h1 : f₁ a with
      | error e =>
          rw [h1, exceptMap_err] at hab
          cases h2 : f₂ b with
          | error e₂ =>
              rw [h2, exceptMap_err] at hab
              injection hab with he
              subst he
              rw [exceptBind_err, exceptBind_err]
          | ok v =>
              rw [h2, exceptMap_ok] at hab
              exact Except.noConfusion hab
      | ok v₁ =>
          rw [h1, exceptMap_ok] at hab
          cases h2 : f₂ b with
          | error e₂ =>
              rw [h2, exceptMap_err] at hab
              exact Except.noConfusion hab
          | ok v₂ =>
              rw [h2, exceptMap_ok] at hab
              injection hab with hv
              rw [exceptBind_ok, exceptBind_ok]
              cases ht1 : l₁'.mapM f₁ with
              | error e =>
                  rw [ht1, exceptMap_err] at ih
                  cases ht2 : l₂'.mapM f₂ with
                  | error e₂ =>
                      rw [ht2, exceptMap_err] at ih
                      injection ih with he
                      subst he
                      rw [exceptBind_err, exceptBind_err]
                  | ok vs₂ =>
                      rw [ht2, exceptMap_ok] at ih
                      exact Except.noConfusion ih
              | ok vs₁ =>
                  rw [ht1, exceptMap_ok] at ih
                  cases ht2 : l₂'.mapM f₂ with
                  | error e₂ =>
                      rw [ht2, exceptMap_err] at ih
                      exact Except.noConfusion ih
                  | ok vs₂ =>
                      rw [ht2, exceptMap_ok] at ih
                      injection ih with hvs
                      rw [exceptBind_ok, exceptBind_ok]
                      show Except.ok ((v₁ :: vs₁).map φ) =
                        Except.ok ((v₂ :: vs₂).map φ)
                      simp [hv, hvs]

theorem matchJ_congr (fuel : Nat) {p₁ p₂ d₁ d₂ : Judgement} (σ : Subst)
    (hp : RJ p₁ p₂) (hd : RJ d₁ d₂) :
    Judgement.matchJ fuel p₁ d₁ σ = Judgement.matchJ fuel p₂ d₂ σ := by
  unfold Judgement.matchJ
  rw [rj_expr hp, rj_expr hd, rj_type hp, rj_type hd]

theorem replaceJ_congr (fuel : Nat) {d₁ d₂ : Judgement} (σ : Subst)
    (hd : RJ d₁ d₂) :
    (Judgement.replaceJ fuel d₁ σ).map eraseJ =
      (Judgement.replaceJ fuel d₂ σ).map eraseJ := by
  unfold Judgement.replaceJ
  rw [rj_type hd, rj_expr hd]
  cases h : CCGType.replace fuel σ.ts d₂.type with
  | error e => rw [exceptBind_err, exceptBind_err]
  | ok t =>
      rw [exceptBind_ok, exceptBind_ok]
      show Except.ok (eraseJ _) = Except.ok (eraseJ _)
      simp only [eraseJ]
      rw [eraseRecs_eq_map, eraseRecs_eq_map, rj_derivation hd]

theorem inferMatchGo_congr (fuel : Nat) :
    ∀ (hyps : List Judgement) {d₁s d₂s : List Judgement} (σ : Subst),
      List.Forall₂ RJ d₁s d₂s →
      inferMatchGo fuel (hyps.zip d₁s) σ = inferMatchGo fuel (hyps.zip d₂s) σ := by
  intro hyps
  induction hyps with
  | nil => intro d₁s d₂s σ _; rfl
  | cons hp hyps ih =>
      intro d₁s d₂s σ h
      cases h with
      | nil => rfl
      | @cons a b l₁ l₂ hr htail =>
          simp only [List.zip_cons_cons]
          unfold inferMatchGo
          cases hpat : Judgement.replaceJ fuel hp σ with
          | error e => rw [exceptBind_err, exceptBind_err]
          | ok pat' =>
              rw [exceptBind_ok, exceptBind_ok]
              have hdat := replaceJ_congr fuel σ hr
              cases hd1 : Judgement.replaceJ fuel a σ with
              | error e =>
                  rw [hd1, exceptMap_err] at hdat
                  cases hd2 : Judgement.replaceJ fuel b σ with
                  | error e₂ =>
                      rw [hd2, exceptMap_err] at hdat
                      injection hdat with he
                      subst he
                      rw [exceptBind_err, exceptBind_err]
                  | ok v =>
                      rw [hd2, exceptMap_ok] at hdat
                      exact Except.noConfusion hdat
              | ok d₁' =>
                  rw [hd1, exceptMap_ok] at hdat
                  cases hd2 : Judgement.replaceJ fuel b σ with
                  | error e₂ =>
                      rw [hd2, exceptMap_err] at hdat
                      exact Except.noConfusion hdat
                  | ok d₂' =>
                      rw [hd2, exceptMap_ok] at hdat
                      have hdd : RJ d₁' d₂' := Except.ok.inj hdat
                      rw [exceptBind_ok, exceptBind_ok,
                        matchJ_congr fuel σ (rj_refl pat') hdd]
                      cases hm : Judgement.matchJ fuel pat' d₂' σ with
                      | error e => rw [exceptBind_err, exceptBind_err]
                      | ok o =>
                          rw [exceptBind_ok, exceptBind_ok]
                          cases o with
                          | none => rfl
                          | some σ' => exact ih σ' htail

theorem derivingJ_congr {c₁ c₂ : Judgement} (rn : String) (σ : Subst)
    {d₁s d₂s : List Judgement} (s₁ s₂ : Option LambdaTerm)
    (hc : RJ c₁ c₂) (hd : List.Forall₂ RJ d₁s d₂s) :
    (derivingJ c₁ rn σ d₁s s₁).map eraseJ =
      (derivingJ c₂ rn σ d₂s s₂).map eraseJ := by
  unfold derivingJ
  have htup : (listProd (d₁s.map Judgement.derivation)).map (List.map eraseRec) =
      (listProd (d₂s.map Judgement.derivation)).map (List.map eraseRec) := by
    rw [← listProd_map, ← listProd_map]
    congr 1
    rw [List.map_map, List.map_map]
    exact forall₂_map_eq (hd.imp (fun {a b} hr => by
      simpa [Function.comp_def] using rj_derivation hr))
  have hch : eraseList d₁s = eraseList d₂s := by
    rw [eraseList_eq_map, eraseList_eq_map]
    exact forall₂_map_eq hd
  have hrecs := mapM_rel eraseRec
    (fun t => do
      let w ← maxWeights t
      pure (DRecord.mk w (some (DInfo.mk rn σ d₁s))))
    (fun t => do
      let w ← maxWeights t
      pure (DRecord.mk w (some (DInfo.mk rn σ d₂s))))
    (forall₂_of_map_eq htup)
    (fun t₁ t₂ hr => by
      dsimp only
      rw [show maxWeights t₁ = maxWeights t₂ from
        maxWeights_weights (weights_of_erase hr)]
      cases hw : maxWeights t₂ with
      | error e => rw [exceptBind_err, exceptBind_err]
      | ok w =>
          rw [exceptBind_ok, exceptBind_ok]
          show Except.ok (eraseRec _) = Except.ok (eraseRec _)
          simp [eraseRec, hch])
  cases h1 : (listProd (d₁s.map Judgement.derivation)).mapM
      (fun t => do
        let w ← maxWeights t
        pure (DRecord.mk w (some (DInfo.mk rn σ d₁s)))) with
  | error e =>
      rw [h1, exceptMap_err] at hrecs
      cases h2 : (listProd (d₂s.map Judgement.derivation)).mapM
          (fun t => do
            let w ← maxWeights t
            pure (DRecord.mk w (some (DInfo.mk rn σ d₂s)))) with
      | error e₂ =>
          rw [h2, exceptMap_err] at hrecs
          injection hrecs with he
          subst he
          rw [exceptBind_err, exceptBind_err]
      | ok recs₂ =>
          rw [h2, exceptMap_ok] at hrecs
          exact Except.noConfusion hrecs
  | ok recs₁ =>
      rw [h1, exceptMap_ok] at hrecs
      cases h2 : (listProd (d₂s.map Judgement.derivation)).mapM
          (fun t => do
            let w ← maxWeights t
            pure (DRecord.mk w (some (DInfo.mk rn σ d₂s)))) with
      | error e₂ =>
          rw [h2, exceptMap_err] at hrecs
          exact Except.noConfusion hrecs
      | ok recs₂ =>
          rw [h2, exceptMap_ok] at hrecs
          injection hrecs with hrr
          rw [exceptBind_ok, exceptBind_ok]
          show Except.ok (eraseJ _) = Except.ok (eraseJ _)
          simp only [eraseJ]
          rw [rj_expr hc, rj_type hc, eraseRecs_eq_map, eraseRecs_eq_map, hrr]

theorem inferMatch_congr (fuel : Nat) {inf : Inference}
    (hbase : inf.raiser = false) {d₁s d₂s : List Judgement}
    {stA stB stA' stB' : GState} {r₁ r₂ : Option Judgement}
    (hd : List.Forall₂ RJ d₁s d₂s)
    (h₁ : inferMatch fuel inf d₁s stA = .ok (r₁, stA'))
    (h₂ : inferMatch fuel inf d₂s stB = .ok (r₂, stB')) :
    r₁.map eraseJ = r₂.map eraseJ := by
  unfold inferMatch applyHelper at h₁ h₂
  rw [hbase] at h₁ h₂
  simp only [Bool.false_eq_true, if_false] at h₁ h₂
  rw [show (pure ((inf.hyps, inf.concl), stA) :
      Except RunErr ((List Judgement × Judgement) × GState)) =
      .ok ((inf.hyps, inf.concl), stA) from rfl, exceptBind_ok] at h₁
  rw [show (pure ((inf.hyps, inf.concl), stB) :
      Except RunErr ((List Judgement × Judgement) × GState)) =
      .ok ((inf.hyps, inf.concl), stB) from rfl, exceptBind_ok] at h₂
  rw [inferMatchGo_congr fuel inf.hyps emptySubst hd] at h₁
  cases hgo : inferMatchGo fuel (inf.hyps.zip d₂s) emptySubst with
  | error e => rw [hgo, exceptBind_err] at h₁; cases h₁
  | ok o =>
      rw [hgo, exceptBind_ok] at h₁ h₂
      cases o with
      | none =>
          dsimp only at h₁ h₂
          injection h₁ with hp₁
          injection h₂ with hp₂
          injection hp₁ with hr₁ _
          injection hp₂ with hr₂ _
          rw [← hr₁, ← hr₂]
      | some σ =>
          dsimp only at h₁ h₂
          cases hs1 : inf.semFn fuel d₁s stA.lcount with
          | error e => rw [hs1, exceptBind_err] at h₁; cases h₁
          | ok p₁ =>
              obtain ⟨sem₁, lc₁⟩ := p₁
              rw [hs1, exceptBind_ok] at h₁
              cases hs2 : inf.semFn fuel d₂s stB.lcount with
              | error e => rw [hs2, exceptBind_err] at h₂; cases h₂
              | ok p₂ =>
                  obtain ⟨sem₂, lc₂⟩ := p₂
                  rw [hs2, exceptBind_ok] at h₂
                  cases hcr : Judgement.replaceJ fuel inf.concl σ with
                  | error e =>
                      rw [hcr, exceptBind_err] at h₁; cases h₁
                  | ok c' =>
                      rw [hcr, exceptBind_ok] at h₁ h₂
                      have hder := derivingJ_congr inf.name σ sem₁ sem₂
                        (rj_refl c') hd
                      cases hd1 : derivingJ c' inf.name σ d₁s sem₁ with
                      | error e => rw [hd1, exceptBind_err] at h₁; cases h₁
                      | ok j₁ =>
                          rw [hd1, exceptMap_ok] at hder
                          cases hd2 : derivingJ c' inf.name σ d₂s sem₂ with
                          | error e => rw [hd2, exceptBind_err] at h₂; cases h₂
                          | ok j₂ =>
                              rw [hd2, exceptMap_ok] at hder
                              rw [hd1, exceptBind_ok] at h₁
                              rw [hd2, exceptBind_ok] at h₂
                              injection h₁ with hp₁
                              injection h₂ with hp₂
                              injection hp₁ with hr₁ _
                              injection hp₂ with hr₂ _
                              injection hder with hje
                              rw [← hr₁, ← hr₂]
                              simp [hje]

theorem baseCombinators_raiser : ∀ c ∈ baseCombinators, c.raiser = false := by
  intro c hc
  simp only [baseCombinators, List.mem_cons, List.not_mem_nil, or_false] at hc
  rcases hc with rfl | rfl | rfl | rfl <;> rfl

theorem addCombinations_extends (fuel : Nat) :
    ∀ (combs : List Inference) (l r : Judgement) (cur : List Judgement)
      (st : GState) (out : List Judgement) (st' : GState),
      addCombinations fuel combs l r cur st = .ok (out, st') →
      ∃ new, out = cur ++ new := by
  intro combs
  induction combs with
  | nil =>
      intro l r cur st out st' h
      injection h with hp
      injection hp with h1 _
      exact ⟨[], by rw [← h1]; simp⟩
  | cons c cs ih =>
      intro l r cur st out st' h
      unfold addCombinations at h
      cases hm : inferMatch fuel c [l, r] st with
      | error e =>
          rw [hm, exceptBind_err] at h
          exact Except.noConfusion h
      | ok p =>
          obtain ⟨res, st₁⟩ := p
          rw [hm, exceptBind_ok] at h
          cases res with
          | some j =>
              dsimp only at h
              obtain ⟨new, hnew⟩ := ih l r (cur ++ [j]) st₁ out st' h
              exact ⟨[j] ++ new, by rw [hnew]; simp⟩
          | none =>
              dsimp only at h
              exact ih l r cur st₁ out st' h

theorem addCombinations_related (fuel : Nat) :
    ∀ (combs : List Inference), (∀ c ∈ combs, c.raiser = false) →
    ∀ {lN rN lT rT : Judgement}, RJ lN lT → RJ rN rT →
    ∀ (curN curT : List Judgement) (stN stT : GState)
      (outN outT : List Judgement) (stN' stT' : GState),
      addCombinations fuel combs lN rN curN stN = .ok (outN, stN') →
      addCombinations fuel combs lT rT curT stT = .ok (outT, stT') →
      ∃ newN newT, outN = curN ++ newN ∧ outT = curT ++ newT ∧
        List.Forall₂ RJ newN newT := by
  intro combs
  induction combs with
  | nil =>
      intro _ lN rN lT rT _ _ curN curT stN stT outN outT stN' stT' hN hT
      injection hN with hpN
      injection hT with hpT
      injection hpN with h1N _
      injection hpT with h1T _
      exact ⟨[], [], by rw [← h1N]; simp, by rw [← h1T]; simp, List.Forall₂.nil⟩
  | cons c cs ih =>
      intro hbase lN rN lT rT hl hr curN curT stN stT outN outT stN' stT' hN hT
      unfold addCombinations at hN hT
      cases hmN : inferMatch fuel c [lN, rN] stN with
      | error e =>
          rw [hmN, exceptBind_err] at hN
          exact Except.noConfusion hN
      | ok pN =>
          obtain ⟨resN, stN₁⟩ := pN
          rw [hmN, exceptBind_ok] at hN
          cases hmT : inferMatch fuel c [lT, rT] stT with
          | error e =>
              rw [hmT, exceptBind_err] at hT
              exact Except.noConfusion hT
          | ok pT =>
              obtain ⟨resT, stT₁⟩ := pT
              rw [hmT, exceptBind_ok] at hT
              have hcong := inferMatch_congr fuel (hbase c (by simp))
                (List.Forall₂.cons hl (List.Forall₂.cons hr List.Forall₂.nil))
                hmN hmT
              have hbase' : ∀ c' ∈ cs, c'.raiser = false :=
                fun c' hc' => hbase c' (by simp [hc'])
              cases resN with
              | none =>
                  cases resT with
                  | none =>
                      dsimp only at hN hT
                      exact ih hbase' hl hr curN curT stN₁ stT₁
                        outN outT stN' stT' hN hT
                  | some jT => simp [Option.map] at hcong
              | some jN =>
                  cases resT with
                  | none => simp [Option.map] at hcong
                  | some jT =>
                      dsimp only at hN hT
                      have hj : RJ jN jT := by
                        simpa [Option.map] using hcong
                      obtain ⟨newN, newT, hoN, hoT, hforall⟩ :=
                        ih hbase' hl hr (curN ++ [jN]) (curT ++ [jT])
                          stN₁ stT₁ outN outT stN' stT' hN hT
                      exact ⟨jN :: newN, jT :: newT,
                        by rw [hoN]; simp,
                        by rw [hoT]; simp,
                        List.Forall₂.cons hj hforall⟩

theorem processPairs_cons_noTyper_inv (fuel : Nat) {l r : Judgement}
    {rest : List (Judgement × Judgement)} {acc : List Judgement} {st : GState}
    {out : List Judgement} {st' : GState}
    (h : processPairs fuel false ((l, r) :: rest) acc st = .ok (out, st')) :
    ∃ acc1 st1, addCombinations fuel baseCombinators l r acc st = .ok (acc1, st1) ∧
      processPairs fuel false rest acc1 st1 = .ok (out, st') := by
  unfold processPairs at h
  cases ha : addCombinations fuel baseCombinators l r acc st with
  | error e =>
      rw [ha, exceptBind_err] at h
      exact Except.noConfusion h
  | ok p =>
      obtain ⟨acc1, st1⟩ := p
      rw [ha, exceptBind_ok] at h
      simp only [Bool.false_eq_true, if_false] at h
      exact ⟨acc1, st1, rfl, h⟩

theorem processPairs_cons_typer_inv (fuel : Nat) {l r : Judgement}
    {rest : List (Judgement × Judgement)} {acc : List Judgement} {st : GState}
    {out : List Judgement} {st' : GState}
    (h : processPairs fuel true ((l, r) :: rest) acc st = .ok (out, st')) :
    ∃ acc1 st1 extra st₃,
      addCombinations fuel baseCombinators l r acc st = .ok (acc1, st1) ∧
      processPairs fuel true rest (acc1 ++ extra) st₃ = .ok (out, st') := by
  unfold processPairs at h
  cases ha : addCombinations fuel baseCombinators l r acc st with
  | error e =>
      rw [ha, exceptBind_err] at h
      exact Except.noConfusion h
  | ok p =>
      obtain ⟨acc1, st1⟩ := p
      rw [ha, exceptBind_ok] at h
      simp only [eq_self_iff_true, if_true] at h
      refine ⟨acc1, st1, ?_⟩
      cases hr1 : inferMatch fuel TypeRaisingRight [r] st1 with
      | error e =>
          rw [hr1, exceptBind_err] at h
          exact Except.noConfusion h
      | ok p1 =>
          obtain ⟨nr, st1'⟩ := p1
          rw [hr1, exceptBind_ok] at h
          cases nr with
          | some newRight =>
              dsimp only at h
              cases ha2 : addCombinations fuel baseCombinators l newRight
                  acc1 st1' with
              | error e =>
                  rw [ha2, exceptBind_err] at h
                  exact Except.noConfusion h
              | ok p2 =>
                  obtain ⟨acc2, st2⟩ := p2
                  rw [ha2, exceptBind_ok] at h
                  dsimp only at h
                  obtain ⟨e2, he2⟩ :=
                    addCombinations_extends fuel _ _ _ _ _ _ _ ha2
                  cases hl1 : inferMatch fuel TypeRaisingLeft [l] st2 with
                  | error e =>
                      rw [hl1, exceptBind_err] at h
                      exact Except.noConfusion h
                  | ok p3 =>
                      obtain ⟨nl, st2'⟩ := p3
                      rw [hl1, exceptBind_ok] at h
                      cases nl with
                      | some newLeft =>
                          dsimp only at h
                          cases ha3 : addCombinations fuel baseCombinators
                              newLeft r acc2 st2' with
                          | error e =>
                              rw [ha3, exceptBind_err] at h
                              exact Except.noConfusion h
                          | ok p4 =>
                              obtain ⟨acc3, st3⟩ := p4
                              rw [ha3, exceptBind_ok] at h
                              obtain ⟨e3, he3⟩ :=
                                addCombinations_extends fuel _ _ _ _ _ _ _ ha3
                              refine ⟨e2 ++ e3, st3, rfl, ?_⟩
                              rw [← List.append_assoc, ← he2, ← he3]
                              exact h
                      | none =>
                          dsimp only at h
                          rw [exceptPure_eq, exceptBind_ok] at h
                          refine ⟨e2, st2', rfl, ?_⟩
                          rw [← he2]
                          exact h
          | none =>
              dsimp only at h
              rw [exceptPure_eq, exceptBind_ok] at h
              dsimp only at h
              cases hl1 : inferMatch fuel TypeRaisingLeft [l] st1' with
              | error e =>
                  rw [hl1, exceptBind_err] at h
                  exact Except.noConfusion h
              | ok p3 =>
                  obtain ⟨nl, st2'⟩ := p3
                  rw [hl1, exceptBind_ok] at h
                  cases nl with
                  | some newLeft =>
                      dsimp only at h
                      cases ha3 : addCombinations fuel baseCombinators
                          newLeft r acc1 st2' with
                      | error e =>
                          rw [ha3, exceptBind_err] at h
                          exact Except.noConfusion h
                      | ok p4 =>
                          obtain ⟨acc3, st3⟩ := p4
                          rw [ha3, exceptBind_ok] at h
                          obtain ⟨e3, he3⟩ :=
                            addCombinations_extends fuel _ _ _ _ _ _ _ ha3
                          refine ⟨e3, st3, rfl, ?_⟩
                          rw [← he3]
                          exact h
                  | none =>
                      dsimp only at h
                      rw [exceptPure_eq, exceptBind_ok] at h
                      refine ⟨[], st2', rfl, ?_⟩
                      rw [List.append_nil]
                      exact h

theorem processPairs_nil_inv {fuel : Nat} {useTyper : Bool}
    {acc : List Judgement} {st : GState} {out : List Judgement} {st' : GState}
    (h : processPairs fuel useTyper [] acc st = .ok (out, st')) : out = acc := by
  injection h with hp
  injection hp with h1 _
  exact h1.symm

theorem processPairs_mono (fuel : Nat) :
    ∀ {pairsN pairsT : List (Judgement × Judgement)}, RelSub RP pairsN pairsT →
    ∀ {accN accT : List Judgement}, RelSub RJ accN accT →
    ∀ {stN stT : GState} {outN outT : List Judgement} {stN' stT' : GState},
      processPairs fuel false pairsN accN stN = .ok (outN, stN') →
      processPairs fuel true pairsT accT stT = .ok (outT, stT') →
      RelSub RJ outN outT := by
  intro pairsN pairsT hP
  induction hP with
  | nil =>
      intro accN accT hacc stN stT outN outT stN' stT' hN hT
      rw [processPairs_nil_inv hN, processPairs_nil_inv hT]
      exact hacc
  | cons p₂ hP ih =>
      intro accN accT hacc stN stT outN outT stN' stT' hN hT
      obtain ⟨lT, rT⟩ := p₂
      obtain ⟨acc1, st1, extra, st₃, hAdd, hT'⟩ :=
        processPairs_cons_typer_inv fuel hT
      obtain ⟨new, hnew⟩ := addCombinations_extends fuel _ _ _ _ _ _ _ hAdd
      have hacc' : RelSub RJ accN (acc1 ++ extra) := by
        rw [hnew, List.append_assoc]
        exact hacc.extendR (new ++ extra)
      exact ih hacc' hN hT'
  | @cons₂ pairsN' pairsT' pN pT hP hp ih =>
      intro accN accT hacc stN stT outN outT stN' stT' hN hT
      obtain ⟨lN, rN⟩ := pN
      obtain ⟨lT, rT⟩ := pT
      obtain ⟨acc1N, st1N, hAddN, hN'⟩ := processPairs_cons_noTyper_inv fuel hN
      obtain ⟨acc1T, st1T, extra, st₃, hAddT, hT'⟩ :=
        processPairs_cons_typer_inv fuel hT
      obtain ⟨newN, newT, hoN, hoT, hforall⟩ :=
        addCombinations_related fuel baseCombinators baseCombinators_raiser
          hp.1 hp.2 accN accT stN stT acc1N acc1T st1N st1T hAddN hAddT
      have hacc' : RelSub RJ acc1N (acc1T ++ extra) := by
        rw [hoN, hoT]
        exact (hacc.append (relSub_of_forall₂ hforall)).extendR extra
      exact ih hacc' hN' hT'

theorem spanPairs_mono {chN chT : Chart} (h : ChartRel chN chT)
    (span start : Nat) :
    RelSub RP (spanPairs chN span start) (spanPairs chT span start) := by
  unfold spanPairs
  refine relSub_flatMap (relSub_self (fun a => rfl) (List.range' 1 (span - 1)))
    (fun a b hab => ?_)
  subst hab
  refine relSub_flatMap (h (start, start + a)) (fun l₁ l₂ hl => ?_)
  refine relSub_map (h (start + a, start + span)) (fun r₁ r₂ hrr => ?_)
  exact ⟨hl, hrr⟩

theorem chartRel_set {chN chT : Chart} (h : ChartRel chN chT) (k : Nat × Nat)
    {v₁ v₂ : List Judgement} (hv : RelSub RJ v₁ v₂) :
    ChartRel (chartSet chN k v₁) (chartSet chT k v₂) := by
  intro k'
  unfold chartGet chartSet
  by_cases hk : k' = k
  · simp only [hk, if_pos rfl]
    exact hv
  · simp only [if_neg hk]
    exact h k'

theorem buildSpans_rel (fuel : Nat) :
    ∀ (cells : List (Nat × Nat)) {chN chT : Chart}, ChartRel chN chT →
    ∀ {stN stT : GState} {chN' chT' : Chart} {stN' stT' : GState},
      buildSpans fuel false cells chN stN = .ok (chN', stN') →
      buildSpans fuel true cells chT stT = .ok (chT', stT') →
      ChartRel chN' chT' := by
  intro cells
  induction cells with
  | nil =>
      intro chN chT h stN stT chN' chT' stN' stT' hN hT
      injection hN with hpN
      injection hT with hpT
      injection hpN with h1N _
      injection hpT with h1T _
      rw [← h1N, ← h1T]
      exact h
  | cons c rest ih =>
      intro chN chT h stN stT chN' chT' stN' stT' hN hT
      obtain ⟨span, start⟩ := c
      unfold buildSpans at hN hT
      cases hcN : computeChart fuel chN span start false stN with
      | error e =>
          rw [hcN, exceptBind_err] at hN
          exact Except.noConfusion hN
      | ok pN =>
          obtain ⟨cellN, stN₁⟩ := pN
          rw [hcN, exceptBind_ok] at hN
          cases hcT : computeChart fuel chT span start true stT with
          | error e =>
              rw [hcT, exceptBind_err] at hT
              exact Except.noConfusion hT
          | ok pT =>
              obtain ⟨cellT, stT₁⟩ := pT
              rw [hcT, exceptBind_ok] at hT
              have hcell : RelSub RJ cellN cellT :=
                processPairs_mono fuel (spanPairs_mono h span start)
                  RelSub.nil hcN hcT
              exact ih (chartRel_set h (start, start + span) hcell) hN hT

/-- C6: on the same lexicon, goal and input, a completed run of the parser
with `use_type_raising = true` yields at least as many derivations as a
completed run with `use_type_raising = false`, regardless of the fresh-name
counter states the two runs start from (the flag only adds combination
attempts, and the chart is append-only). -/
theorem type_raising_monotone (fuel : Nat) (lex : Lexicon)
    (terminal input : String) (st₁ st₂ : GState)
    (r₁ r₂ : List CKYDerivation) (s₁ s₂ : GState)
    (h₁ : ccgParser fuel lex terminal input false st₁ = .ok (r₁, s₁))
    (h₂ : ccgParser fuel lex terminal input true st₂ = .ok (r₂, s₂)) :
    r₁.length ≤ r₂.length := by
  unfold ccgParser at h₁ h₂
  cases hb : blankInput input with
  | true =>
      rw [hb] at h₁
      simp only [if_pos rfl] at h₁
      exact Except.noConfusion h₁
  | false =>
      rw [hb] at h₁ h₂
      simp only [Bool.false_eq_true, if_false] at h₁ h₂
      unfold runChart at h₁ h₂
      cases hseed : seedChart lex (pySplit input) 0 emptyChart with
      | error e =>
          rw [hseed, exceptBind_err, exceptBind_err] at h₁
          exact Except.noConfusion h₁
      | ok ch₀ =>
          rw [hseed, exceptBind_ok] at h₁ h₂
          cases hbsN : buildSpans fuel false (spanList (pySplit input).length)
              ch₀ st₁ with
          | error e =>
              rw [hbsN, exceptBind_err] at h₁
              exact Except.noConfusion h₁
          | ok pN =>
              obtain ⟨chN, stN'⟩ := pN
              rw [hbsN, exceptBind_ok] at h₁
              cases hbsT : buildSpans fuel true (spanList (pySplit input).length)
                  ch₀ st₂ with
              | error e =>
                  rw [hbsT, exceptBind_err] at h₂
                  exact Except.noConfusion h₂
              | ok pT =>
                  obtain ⟨chT, stT'⟩ := pT
                  rw [hbsT, exceptBind_ok] at h₂
                  dsimp only at h₁ h₂
                  injection h₁ with hp₁
                  injection h₂ with hp₂
                  injection hp₁ with hr₁ _
                  injection hp₂ with hr₂ _
                  rw [← hr₁, ← hr₂]
                  have hch : ChartRel chN chT :=
                    buildSpans_rel fuel _ (fun k => relSub_self rj_refl _)
                      hbsN hbsT
                  have htop := hch (0, (pySplit input).length)
                  have hfilter := relSub_filter
                    (fun j => j.type.render == terminal)
                    (fun a b hab => by dsimp only; rw [rj_type hab]) htop
                  exact reconstruct_length_mono hfilter

theorem type_raising_monotone_witness :
    (ccgParser 5 dupLex "S" "a" false ⟨0, 0⟩ =
        .ok (reconstruct [dupJudgement, dupJudgement], ⟨0, 0⟩)) ∧
    (ccgParser 5 dupLex "S" "a" true ⟨0, 0⟩ =
        .ok (reconstruct [dupJudgement, dupJudgement], ⟨0, 0⟩)) ∧
    (reconstruct [dupJudgement, dupJudgement]).length ≤
      (reconstruct [dupJudgement, dupJudgement]).length :=
  ⟨rfl, rfl,
    type_raising_monotone 5 dupLex "S" "a" ⟨0, 0⟩ ⟨0, 0⟩ _ _ _ _ rfl rfl⟩

end CYK
